import Mathlib

/-! # Micro: a verification development for `src/main.c`

A shallow embedding of the editor core of Micro (line buffer, cursor motions,
viewport, frame rendering, file load and save, key decoding and dispatch) and
theorems about it.

Modelling conventions.

* Characters are bytes, represented as natural numbers below 256. A C `int`
  that is stored into a `char` is reduced modulo 256.
* The `int` fields of the editor are integers; the development assumes that no
  signed arithmetic overflows the range of `int`.
* A line is the sequence of its `len` stored bytes. The terminating NUL that
  the C code keeps at `chars[len]` is implicit. Stored bytes may themselves be
  NUL (a loaded file can contain such bytes), so the functions of `string.h`
  that stop at the first NUL are modelled as stopping there.
* The doubly linked list of lines together with the pointers `E.first` and
  `E.current` is represented by the lines before the current line (nearest
  first, the chain of `prev` links), the current line, and the lines after it
  (the chain of `next` links). A buffer without lines has `E.first` and
  `E.current` both null.
* Every operation returns an `Option`: `none` stands for behaviour that C
  leaves undefined (dereferencing a null `E.current`, or reading or writing
  outside a line's storage). Allocation is assumed to succeed.
-/

namespace Micro

/-! ## Data model -/

/-- The constant `TAB_STOP`. -/
def TAB_STOP : Int := 8

/-- A `struct line`: the `len` bytes stored in `chars`. -/
structure line where
  chars : List Nat
deriving DecidableEq

/-- The field `len` of a line. -/
def line.len (l : line) : Int := l.chars.length

/-- A non-empty linked list of lines with its current node. -/
structure buffer where
  /-- The nodes reached from the current one through `prev`, nearest first. -/
  before : List line
  /-- The node `E.current`. -/
  cur : line
  /-- The nodes reached from the current one through `next`, nearest first. -/
  after : List line
deriving DecidableEq

/-- The global `editor E` (without the saved terminal attributes). -/
structure editor where
  cx : Int
  cy : Int
  rowoff : Int
  coloff : Int
  rows : Int
  cols : Int
  /-- `none` when `E.first` and `E.current` are null. -/
  buf : Option buffer
  filename : Option (List Nat)
  dirty : Bool
deriving DecidableEq

/-- The lines of a buffer in document order, from its first node. -/
def buffer.lines (b : buffer) : List line := b.before.reverse ++ b.cur :: b.after

/-- The document: the lines reached from `E.first` through `next`. -/
def editor.lines (E : editor) : List line :=
  match E.buf with
  | none => []
  | some b => b.lines

/-- The line `E.current` points to, if any. -/
def editor.current (E : editor) : Option line := E.buf.map buffer.cur

/-- The buffer whose current node is the first one (`E.current = E.first`). -/
def buffer.rewind (b : buffer) : buffer :=
  match b.before.reverse with
  | [] => b
  | l :: ls => ⟨[], l, ls ++ b.cur :: b.after⟩

/-! ## Line buffer operations -/

/-- The function `insert_line(s, len)`: a new line after the current one, which
becomes current. -/
def insert_line (s : List Nat) (E : editor) : editor :=
  { E with
    buf := match E.buf with
      | none => some ⟨[], ⟨s⟩, []⟩
      | some b => some ⟨b.cur :: b.before, ⟨s⟩, b.after⟩
    cy := E.cy + 1
    dirty := true }

/-- The function `insert_char(c)`. With a current line and `cx` outside
`[0, len]` the `memmove` leaves the line's storage or the line loses its
terminator: the result is `none`. -/
def insert_char (c : Nat) (E : editor) : Option editor :=
  match E.buf with
  | none =>
    some { E with buf := some ⟨[], ⟨[c % 256]⟩, []⟩, cx := E.cx + 1, dirty := true }
  | some b =>
    if 0 ≤ E.cx ∧ E.cx ≤ b.cur.len then
      some { E with
        buf := some { b with
          cur := ⟨b.cur.chars.take E.cx.toNat ++ (c % 256) :: b.cur.chars.drop E.cx.toNat⟩ }
        cx := E.cx + 1
        dirty := true }
    else none

/-- The function `delete_char()`. With `cx > len` the `memmove` leaves the
line's storage or the line loses its terminator, and with `cx < 0` on the first
line `prev` is null: the result is `none`. -/
def delete_char (E : editor) : Option editor :=
  match E.buf with
  | none => some E
  | some b =>
    if E.cx = 0 ∧ b.before = [] then some E
    else if E.cx > 0 then
      if E.cx ≤ b.cur.len then
        some { E with
          buf := some { b with
            cur := ⟨b.cur.chars.take (E.cx.toNat - 1) ++ b.cur.chars.drop E.cx.toNat⟩ }
          cx := E.cx - 1
          dirty := true }
      else none
    else
      match b.before with
      | [] => none
      | p :: ps =>
        some { E with
          buf := some ⟨ps, ⟨p.chars ++ b.cur.chars⟩, b.after⟩
          cx := p.len
          cy := E.cy - 1
          dirty := true }

/-- What `strcpy(right, &chars[n])` copies: the bytes from index `n` up to the
first NUL. -/
def strcpy_from (chars : List Nat) (n : Nat) : List Nat :=
  (chars.drop n).takeWhile (fun ch => ch != 0)

/-- The function `split_line()`. It reads `E.current` without a null check, and
with `cx` outside `[0, len]` it reads outside the line's storage: the result is
`none`. -/
def split_line (E : editor) : Option editor :=
  match E.buf with
  | none => none
  | some b =>
    if 0 ≤ E.cx ∧ E.cx ≤ b.cur.len then
      some { E with
        buf := some ⟨⟨b.cur.chars.take E.cx.toNat⟩ :: b.before,
                     ⟨strcpy_from b.cur.chars E.cx.toNat⟩, b.after⟩
        cx := 0
        cy := E.cy + 1
        dirty := true }
    else none

/-! ## Cursor motions -/

/-- The statement `if (E.cx > l->len) E.cx = l->len;`. -/
def clamp_cx (l : line) (E : editor) : editor :=
  if E.cx > l.len then { E with cx := l.len } else E

/-- One iteration of the page-down loop:
`if (E.current && E.current->next) { E.current = E.current->next; E.cy++; }`. -/
def step_down (E : editor) : editor :=
  match E.buf with
  | some ⟨before, cur, n :: after⟩ =>
    { E with buf := some ⟨cur :: before, n, after⟩, cy := E.cy + 1 }
  | _ => E

/-- One iteration of the page-up loop:
`if (E.current && E.current->prev) { E.current = E.current->prev; E.cy--; }`. -/
def step_up (E : editor) : editor :=
  match E.buf with
  | some ⟨p :: before, cur, after⟩ =>
    { E with buf := some ⟨before, p, cur :: after⟩, cy := E.cy - 1 }
  | _ => E

/-- The number of iterations of `for (int i = 0; i < E.rows / 2; i++)`, the
division being that of C (truncation towards zero). -/
def half_page (E : editor) : Nat := (Int.tdiv E.rows 2).toNat

/-- The function `move_cursor(key)`; the keys are
`'h'` 104, `'l'` 108, `'k'` 107, `'j'` 106, `'0'` 48, `'$'` 36, `'J'` 74, `'K'` 75.
The page motions read `E.current->len` without a null check. -/
def move_cursor (key : Nat) (E : editor) : Option editor :=
  if key = 104 then
    some (if E.cx > 0 then { E with cx := E.cx - 1 } else E)
  else if key = 108 then
    match E.buf with
    | some b => some (if E.cx < b.cur.len then { E with cx := E.cx + 1 } else E)
    | none => some E
  else if key = 107 then
    match E.buf with
    | some ⟨p :: _, _, _⟩ => some (clamp_cx p (step_up E))
    | _ => some E
  else if key = 106 then
    match E.buf with
    | some ⟨_, _, n :: _⟩ => some (clamp_cx n (step_down E))
    | _ => some E
  else if key = 48 then
    some { E with cx := 0 }
  else if key = 36 then
    match E.buf with
    | some b => some { E with cx := b.cur.len }
    | none => some E
  else if key = 74 then
    let E1 := Nat.iterate step_down (half_page E) E
    match E1.buf with
    | some b => some (clamp_cx b.cur E1)
    | none => none
  else if key = 75 then
    let E1 := Nat.iterate step_up (half_page E) E
    match E1.buf with
    | some b => some (clamp_cx b.cur E1)
    | none => none
  else some E

/-! ## Viewport -/

/-- The body of the loop of `row_cx_to_rx` at index `j`, from the value `rx`:
a read of `row[j]` at `j = len` sees the terminating NUL. The remainder is that
of C. -/
def rx_step (row : List Nat) (rx : Int) (j : Nat) : Int :=
  (if row.getD j 0 = 9 then rx + ((TAB_STOP - 1) - Int.tmod rx TAB_STOP) else rx) + 1

/-- The function `row_cx_to_rx(row, cx)` on a line's bytes. The loop reads
`row[0]` to `row[cx - 1]`, which lie in the line's storage (terminator included)
when `cx ≤ len + 1`. -/
def row_cx_to_rx (row : List Nat) (cx : Int) : Option Int :=
  if cx ≤ row.length + 1 then
    some ((List.range cx.toNat).foldl (rx_step row) 0)
  else none

/-- The vertical part of `scroll()`. -/
def scroll_vertical (E : editor) : editor :=
  let E1 := if E.cy < E.rowoff then { E with rowoff := E.cy } else E
  if E1.cy ≥ E1.rowoff + E1.rows then { E1 with rowoff := E1.cy - E1.rows + 1 } else E1

/-- The horizontal part of `scroll()`, `rx` being the visual column of the
cursor. -/
def scroll_horizontal (rx : Int) (E : editor) : editor :=
  let E1 := if rx < E.coloff then { E with coloff := rx } else E
  if rx ≥ E1.coloff + E1.cols then { E1 with coloff := rx - E1.cols + 1 } else E1

/-- The function `scroll()`. -/
def scroll (E : editor) : Option editor :=
  let E1 := scroll_vertical E
  match E1.buf with
  | none => some E1
  | some b =>
    match row_cx_to_rx b.cur.chars E1.cx with
    | none => none
    | some rx => some (scroll_horizontal rx E1)

/-! ## Rendering -/

/-- The loop `while (l && filerow < E.rowoff) { l = l->next; filerow++; }` of
`draw_rows`, from the node list `l` and the counter `filerow`. -/
def skip_rows (rowoff : Int) : List line → Int → List line × Int
  | [], filerow => ([], filerow)
  | l :: ls, filerow =>
    if filerow < rowoff then skip_rows rowoff ls (filerow + 1) else (l :: ls, filerow)

/-- The bytes `draw_rows` writes for a line `l`: `len` bytes from
`&l->chars[E.coloff]`, where `len` is `l->len - E.coloff` clipped to
`[0, E.cols]`. With a positive `len` and a negative `E.coloff` the read starts
before the storage. -/
def draw_line (E : editor) (l : line) : Option (List Nat) :=
  let len0 := l.len - E.coloff
  let len1 := if len0 < 0 then 0 else len0
  let len := if len1 > E.cols then E.cols else len1
  if len > 0 then
    if 0 ≤ E.coloff then some ((l.chars.drop E.coloff.toNat).take len.toNat) else none
  else some []

/-- The erase-to-end-of-line sequence `"\x1b[K"`. -/
def ERASE_EOL : List Nat := [27, 91, 75]

/-- The line break `"\r\n"`. -/
def CRLF : List Nat := [13, 10]

/-- The filler `"~"`. -/
def TILDE : List Nat := [126]

/-- The loop `for (int y = 0; y < E.rows; y++)` of `draw_rows`: `n` iterations
from row `y`, with `l` the remaining nodes. The result lists what each iteration
writes. The counter `filerow` is not changed by the loop. -/
def body_rows (E : editor) (filerow : Int) : Nat → Int → List line → Option (List (List Nat))
  | 0, _, _ => some []
  | n + 1, y, ls =>
    match decide (filerow ≥ E.rowoff + y), ls with
    | true, l :: rest =>
      match draw_line E l, body_rows E filerow n (y + 1) rest with
      | some t, some r => some ((t ++ ERASE_EOL ++ CRLF) :: r)
      | _, _ => none
    | _, _ =>
      match body_rows E filerow n (y + 1) ls with
      | some r => some ((TILDE ++ ERASE_EOL ++ CRLF) :: r)
      | none => none

/-- The rows of the frame body written by `draw_rows`, one entry per terminal
row. -/
def draw_body (E : editor) : Option (List (List Nat)) :=
  let start := skip_rows E.rowoff E.lines 0
  body_rows E start.2 E.rows.toNat 0 start.1

/-- The conversion `%d` of `printf`. -/
def fmt_d (n : Int) : List Nat :=
  if n < 0 then 45 :: (Nat.toDigits 10 n.natAbs).map Char.toNat
  else (Nat.toDigits 10 n.toNat).map Char.toNat

/-- The C string a `char *` denotes: the bytes before the first NUL (also what
`strdup` copies). -/
def strdup (s : List Nat) : List Nat := s.takeWhile (fun ch => ch != 0)

/-- The text `snprintf` formats for the status line, from the format
`"%.20s - %d lines %s"`; it is shorter than the 80 bytes of `status`. -/
def status_text (E : editor) (filerow : Int) : List Nat :=
  (match E.filename with
    | some f => (strdup f).take 20
    | none => [91, 78, 101, 119, 32, 70, 105, 108, 101, 93])
  ++ [32, 45, 32] ++ fmt_d filerow ++ [32, 108, 105, 110, 101, 115, 32]
  ++ (if E.dirty then [40, 109, 111, 100, 105, 102, 105, 101, 100, 41] else [])

/-- The function `draw_rows()`: all the bytes written to the terminal. A
negative byte count for the status line is outside the model. -/
def draw_rows (E : editor) : Option (List Nat) :=
  let start := skip_rows E.rowoff E.lines 0
  match body_rows E start.2 E.rows.toNat 0 start.1 with
  | none => none
  | some body =>
    let status := status_text E start.2
    let len : Int := if (status.length : Int) > E.cols then E.cols else status.length
    if len < 0 then none
    else
      match row_cx_to_rx (match E.buf with | some b => b.cur.chars | none => []) E.cx with
      | none => none
      | some rx =>
        some ([27, 91, 63, 50, 53, 108] ++ [27, 91, 72] ++ body.flatten
          ++ [27, 91, 55, 109] ++ status.take len.toNat ++ [27, 91, 109] ++ ERASE_EOL
          ++ [27, 91] ++ fmt_d (E.cy - E.rowoff + 1) ++ [59] ++ fmt_d (rx - E.coloff + 1) ++ [72]
          ++ [27, 91, 63, 50, 53, 104])

/-! ## Files -/

/-- The successive results of `getline` on a stream holding `content`: each
line runs up to and including its `'\n'` (10); the last one may lack it. -/
def getlines : List Nat → List (List Nat)
  | [] => []
  | c :: cs =>
    if c = 10 then [10] :: getlines cs
    else
      match getlines cs with
      | [] => [[c]]
      | l :: ls => (c :: l) :: ls

/-- The loop of `open_file` that drops the trailing `'\n'` (10) and `'\r'` (13)
bytes of a line read. -/
def strip_eol (l : List Nat) : List Nat :=
  l.rdropWhile (fun ch => ch == 10 || ch == 13)

/-- The function `open_file(filename)`; `file` is the content of the named
file, `none` when `fopen` fails. -/
def open_file (file : Option (List Nat)) (filename : List Nat) (E : editor) : editor :=
  match file with
  | none => E
  | some content =>
    let E1 := { E with buf := none, cy := 0 }
    let E2 := (getlines content).foldl (fun E0 l => insert_line (strip_eol l) E0) E1
    { E2 with
      filename := some (strdup filename)
      dirty := false
      cy := 0
      buf := E2.buf.map buffer.rewind }

/-- The bytes `save_file` writes: each line's `len` bytes and one `'\n'`. -/
def save_bytes (E : editor) : List Nat :=
  (E.lines.map (fun l => l.chars ++ [10])).flatten

/-! ## Keyboard input and dispatch

The standard input is a list of the results of the successive calls
`read(STDIN_FILENO, &c, 1)`: `some b` when the byte `b` was read, `none` when
the call timed out without a byte. Past the end of the list every call times
out. -/

/-- One call `read(STDIN_FILENO, &c, 1)`. -/
def read_byte : List (Option Nat) → Option Nat × List (Option Nat)
  | [] => (none, [])
  | r :: inp => (r, inp)

/-- The function `read_key()`: the key and the remaining input, or `none` when
no byte ever arrives and the first loop does not end. -/
def read_key : List (Option Nat) → Option (Nat × List (Option Nat))
  | [] => none
  | none :: inp => read_key inp
  | some c :: inp =>
    if c = 27 then
      match read_byte inp with
      | (none, inp1) => some (27, inp1)
      | (some s0, inp1) =>
        match read_byte inp1 with
        | (none, inp2) => some (27, inp2)
        | (some s1, inp2) =>
          if s0 = 91 then
            if s1 = 65 then some (107, inp2)
            else if s1 = 66 then some (106, inp2)
            else if s1 = 67 then some (108, inp2)
            else if s1 = 68 then some (104, inp2)
            else if s1 = 53 then
              match read_byte inp2 with
              | (some s2, inp3) => some (if s2 = 126 then 75 else 27, inp3)
              | (none, inp3) => some (27, inp3)
            else if s1 = 54 then
              match read_byte inp2 with
              | (some s2, inp3) => some (if s2 = 126 then 74 else 27, inp3)
              | (none, inp3) => some (27, inp3)
            else if s1 = 72 then some (48, inp2)
            else if s1 = 70 then some (36, inp2)
            else some (27, inp2)
          else some (27, inp2)
    else some (c, inp)

/-- The prompt loop of `save_file`, with room for `n` more bytes in `buf` and
`acc` the bytes stored so far: the name typed, or `none` when Ctrl-C (3) makes
`save_file` return. -/
def read_name : Nat → List (Option Nat) → List Nat → Option (List Nat) × List (Option Nat)
  | 0, inp, acc => (some acc, inp)
  | n + 1, inp, acc =>
    match read_byte inp with
    | (none, inp1) => (some acc, inp1)
    | (some c, inp1) =>
      if c = 13 ∨ c = 10 then (some acc, inp1)
      else if c = 3 then (none, inp1)
      else read_name n inp1 (acc ++ [c])

/-- The function `save_file()`: the new state, the remaining input and, when a
file is written, its name and content. Opening the file for writing is assumed
to succeed. -/
def save_file (E : editor) (inp : List (Option Nat)) :
    editor × List (Option Nat) × Option (List Nat × List Nat) :=
  match E.filename with
  | some f => ({ E with dirty := false }, inp, some (f, save_bytes E))
  | none =>
    match read_name 127 inp [] with
    | (none, inp1) => (E, inp1, none)
    | (some name, inp1) =>
      if name = [] then (E, inp1, none)
      else ({ E with filename := some (strdup name), dirty := false }, inp1,
            some (strdup name, save_bytes E))

/-- The function `init_editor()`; `rows` and `cols` are the values
`get_window_size` leaves in `E.rows` and `E.cols`. -/
def init_editor (rows cols : Int) : editor :=
  { cx := 0, cy := 0, rowoff := 0, coloff := 0, rows := rows, cols := cols,
    buf := none, filename := none, dirty := false }

/-- The test `iscntrl(c)` on a byte, in the C locale. -/
def iscntrl (c : Nat) : Bool := c < 32 || c == 127

/-- How a call of `process_keypress` ends. -/
inductive outcome where
  /-- It returns, with the new state, the remaining input and the file written
  by `save_file`, if any. -/
  | running (E : editor) (input : List (Option Nat)) (written : Option (List Nat × List Nat))
  /-- It calls `exit(0)`. -/
  | exited
  /-- It waits for a key that never comes. -/
  | blocked
  /-- Its behaviour is undefined. -/
  | undefined
deriving DecidableEq

/-- An operation's result as the outcome of the key that ran it. -/
def outcome.of (r : Option editor) (inp : List (Option Nat)) : outcome :=
  match r with
  | some E => outcome.running E inp none
  | none => outcome.undefined

/-- The function `process_keypress()`. Ctrl-Q is 17, Ctrl-S is 19, Ctrl-H is 8. -/
def process_keypress (E : editor) (inp : List (Option Nat)) : outcome :=
  match read_key inp with
  | none => outcome.blocked
  | some (c, inp1) =>
    if c = 17 then
      if E.dirty then
        match read_key inp1 with
        | none => outcome.blocked
        | some (c2, inp2) =>
          if c2 ≠ 17 then outcome.of ((draw_rows E).map (fun _ => E)) inp2
          else outcome.exited
      else outcome.exited
    else if c = 19 then
      match save_file E inp1 with
      | (E1, inp2, w) => outcome.running E1 inp2 w
    else if c = 13 then outcome.of (split_line E) inp1
    else if c = 8 ∨ c = 127 then outcome.of (delete_char E) inp1
    else if c = 104 ∨ c = 106 ∨ c = 107 ∨ c = 108 ∨ c = 48 ∨ c = 36 ∨ c = 74 ∨ c = 75 then
      outcome.of (move_cursor c E) inp1
    else if iscntrl c then outcome.running E inp1 none
    else outcome.of (insert_char c E) inp1

/-! ## Predicates and sequences of operations -/

/-- Cursor validity: there is a current line and `0 ≤ cx ≤ len` on it. -/
def cursor_ok (E : editor) : Prop :=
  match E.buf with
  | some b => 0 ≤ E.cx ∧ E.cx ≤ b.cur.len
  | none => False

instance (E : editor) : Decidable (cursor_ok E) := by
  unfold cursor_ok
  cases E.buf <;> exact inferInstance

/-- A call of `insert_char(c)` immediately followed by `delete_char()`. -/
def insert_then_delete (c : Nat) (E : editor) : Option editor :=
  (insert_char c E).bind delete_char

/-- A call of `split_line()` immediately followed by `delete_char()`. -/
def split_then_delete (E : editor) : Option editor :=
  (split_line E).bind delete_char

/-- A motion or an edit of the document. -/
inductive command where
  | move (key : Nat)
  | insert (c : Nat)
  | delete
  | split
deriving DecidableEq

/-- The call a command stands for. -/
def command.run : command → editor → Option editor
  | command.move key, E => move_cursor key E
  | command.insert c, E => insert_char c E
  | command.delete, E => delete_char E
  | command.split, E => split_line E

/-- The calls of a sequence of commands, one after the other. -/
def run_all : List command → editor → Option editor
  | [], E => some E
  | c :: cs, E => (c.run E).bind (run_all cs)

/-- The first `n` calls of `process_keypress` (the calls of `scroll` and
`draw_rows` that `main` makes before each of them do not change what
`process_keypress` reads, apart from the scroll offsets). The result is the
outcome of the last call; a call that does not return ends the sequence. -/
def process_keys : Nat → editor → List (Option Nat) → outcome
  | 0, E, inp => outcome.running E inp none
  | n + 1, E, inp =>
    match process_keypress E inp with
    | outcome.running E1 inp1 w =>
      if n = 0 then outcome.running E1 inp1 w else process_keys n E1 inp1
    | o => o

/-- The keys that `process_keypress` passes to `move_cursor`:
`'h'`, `'j'`, `'k'`, `'l'`, `'0'`, `'$'`, `'J'`, `'K'`. -/
def is_motion_key (k : Nat) : Prop :=
  k = 104 ∨ k = 106 ∨ k = 107 ∨ k = 108 ∨ k = 48 ∨ k = 36 ∨ k = 74 ∨ k = 75

instance (k : Nat) : Decidable (is_motion_key k) := by
  unfold is_motion_key
  exact inferInstance

/-- The state a call of `process_keypress` returns with, if it returns. -/
def outcome.state : outcome → Option editor
  | outcome.running E _ _ => some E
  | _ => none

/-- The file a call of `process_keypress` wrote, if any. -/
def outcome.file : outcome → Option (List Nat × List Nat)
  | outcome.running _ _ w => w
  | _ => none

/-- The document, the dirty flag and the file name of `E1` are those of `E`. -/
def unedited (E E1 : editor) : Prop :=
  E1.lines = E.lines ∧ E1.dirty = E.dirty ∧ E1.filename = E.filename

/-- The condition under which `delete_char()` returns at once: there is no
current line, or `cx == 0` and the current line has no predecessor. -/
def delete_is_noop (E : editor) : Prop :=
  match E.buf with
  | none => True
  | some b => E.cx = 0 ∧ b.before = []

instance (E : editor) : Decidable (delete_is_noop E) := by
  unfold delete_is_noop
  cases E.buf <;> exact inferInstance

/-- The number of `prev` links from `E.current` back to `E.first`; 0 on the
empty document. -/
def editor.links (E : editor) : Nat :=
  match E.buf with
  | some b => b.before.length
  | none => 0

/-- Row counter consistency: `cy` is the number of predecessor links of the
current line. -/
def cy_ok (E : editor) : Prop := E.cy = E.links

instance (E : editor) : Decidable (cy_ok E) := by
  unfold cy_ok
  exact inferInstance

/-- The reads that follow an ESC byte deliver one of the sequences `[A`, `[B`,
`[C`, `[D`, `[H`, `[F`, `[5~`, `[6~`, without a timeout in between. -/
def recognized_escape : List (Option Nat) → Bool
  | some 91 :: some x :: rest =>
    x == 65 || x == 66 || x == 67 || x == 68 || x == 72 || x == 70 ||
      ((x == 53 || x == 54) &&
        (match rest with
          | some 126 :: _ => true
          | _ => false))
  | _ => false

/-- The states of `main`: the one `init_editor` produces, the one `open_file`
then produces from it, and those the loop of `main` reaches from them through
calls of `scroll` and of `process_keypress` that return (`draw_rows` does not
change the state). -/
inductive reachable : editor → Prop where
  | init (rows cols : Int) : reachable (init_editor rows cols)
  | opened (rows cols : Int) (file : Option (List Nat)) (name : List Nat) :
    reachable (open_file file name (init_editor rows cols))
  | scrolled (E E1 : editor) : reachable E → scroll E = some E1 → reachable E1
  | key (E E1 : editor) (inp inp1 : List (Option Nat)) (w : Option (List Nat × List Nat)) :
    reachable E → process_keypress E inp = outcome.running E1 inp1 w → reachable E1

/-- The cursor is valid, or the document is empty and `cx` is 0. -/
def state_ok (E : editor) : Prop := (E.buf = none ∧ E.cx = 0) ∨ cursor_ok E

/-- With a current line, the visual column of the cursor lies in
`[coloff, coloff + cols)`. -/
def column_in_window (E : editor) : Prop :=
  match E.buf with
  | none => True
  | some b =>
    match row_cx_to_rx b.cur.chars E.cx with
    | some rx => E.coloff ≤ rx ∧ rx < E.coloff + E.cols
    | none => False

instance (E : editor) : Decidable (column_in_window E) := by
  unfold column_in_window
  cases E.buf with
  | none => exact inferInstance
  | some b =>
    dsimp only
    cases row_cx_to_rx b.cur.chars E.cx <;> exact inferInstance

/-- The cursor is inside the window: `rowoff ≤ cy < rowoff + rows` and the
column condition. -/
def in_window (E : editor) : Prop :=
  E.rowoff ≤ E.cy ∧ E.cy < E.rowoff + E.rows ∧ column_in_window E

instance (E : editor) : Decidable (in_window E) := by
  unfold in_window
  exact inferInstance

/-! ## Sample states -/

/-- A document of two lines, `"ab"` and `"c"`, with the cursor after the `a`, on
a terminal of 24 rows and 80 columns. -/
def sample_two_lines : editor :=
  { cx := 1, cy := 0, rowoff := 0, coloff := 0, rows := 24, cols := 80,
    buf := some ⟨[], ⟨[97, 98]⟩, [⟨[99]⟩]⟩, filename := none, dirty := false }

/-- A document whose only line holds the three bytes `'a'`, NUL, `'b'`, with
the cursor at its start: what `open_file` builds from a file of the four bytes
`'a'`, NUL, `'b'`, `'\n'`. -/
def sample_nul_line : editor :=
  { cx := 0, cy := 0, rowoff := 0, coloff := 0, rows := 24, cols := 80,
    buf := some ⟨[], ⟨[97, 0, 98]⟩, []⟩, filename := some [102], dirty := false }

/-- A document of two lines, `"a"` and `"b"`, on a terminal whose frame body
has two rows of 80 columns, not scrolled. -/
def sample_two_rows : editor :=
  { cx := 0, cy := 0, rowoff := 0, coloff := 0, rows := 2, cols := 80,
    buf := some ⟨[], ⟨[97]⟩, [⟨[98]⟩]⟩, filename := none, dirty := false }

/-- A document of three lines, `"ab"`, `"c"` and `"d"`, with the cursor at
column 0 of the second line. -/
def sample_second_line : editor :=
  { cx := 0, cy := 1, rowoff := 0, coloff := 0, rows := 24, cols := 80,
    buf := some ⟨[⟨[97, 98]⟩], ⟨[99]⟩, [⟨[100]⟩]⟩, filename := none, dirty := false }

/-- A document of three lines, `"ab"`, `"c"` and `"d"`, with the cursor at the
end of the second line. -/
def sample_second_line_end : editor :=
  { cx := 1, cy := 1, rowoff := 0, coloff := 0, rows := 24, cols := 80,
    buf := some ⟨[⟨[97, 98]⟩], ⟨[99]⟩, [⟨[100]⟩]⟩, filename := none, dirty := false }

/-- A document of four lines, `"abcd"`, `""`, `"xyz"` and `"q"`, with the cursor
at the end of the first line, on a terminal with four body rows. -/
def sample_page : editor :=
  { cx := 4, cy := 0, rowoff := 0, coloff := 0, rows := 4, cols := 80,
    buf := some ⟨[], ⟨[97, 98, 99, 100]⟩, [⟨[]⟩, ⟨[120, 121, 122]⟩, ⟨[113]⟩]⟩,
    filename := none, dirty := false }

/-- The three-line document with the cursor at the end of the second line and
a window scrolled past the cursor, five rows down and three columns right. -/
def sample_off_window : editor :=
  { cx := 1, cy := 1, rowoff := 5, coloff := 3, rows := 24, cols := 80,
    buf := some ⟨[⟨[97, 98]⟩], ⟨[99]⟩, [⟨[100]⟩]⟩, filename := none, dirty := false }

/-! # Properties -/

/-! ## Lists -/

theorem take_drop_insert (l : List Nat) (n : Nat) (x : Nat) (h : n ≤ l.length) :
    (l.take n ++ x :: l.drop n).take n ++ (l.take n ++ x :: l.drop n).drop (n + 1) = l := by
  have hn : (l.take n).length = n := by simp [h]
  rw [List.take_left' hn]
  have hd : (l.take n ++ x :: l.drop n).drop (n + 1) = l.drop n := by
    rw [← List.drop_drop, List.drop_left' hn]
    rfl
  rw [hd, List.take_append_drop]

/-! ## Insertion followed by deletion -/

theorem insert_then_delete_line (c : Nat) (E : editor) (b : buffer) (hb : E.buf = some b)
    (h0 : 0 ≤ E.cx) (h1 : E.cx ≤ b.cur.len) :
    insert_then_delete c E = some { E with dirty := true } := by
  obtain ⟨cx, cy, ro, co, rows, cols, buf, fn, d⟩ := E
  obtain ⟨before, ⟨chars⟩, after⟩ := b
  simp only [line.len] at h0 h1
  subst hb
  have hn : cx.toNat ≤ chars.length := by omega
  have hlen : cx + 1 ≤ ((chars.take cx.toNat ++ c % 256 :: chars.drop cx.toNat).length : Int) := by
    simp; omega
  have hne : ¬ (cx + 1 = 0 ∧ before = []) := by omega
  have hpos : cx + 1 > 0 := by omega
  have e1 : (cx + 1).toNat - 1 = cx.toNat := by omega
  have e2 : (cx + 1).toNat = cx.toNat + 1 := by omega
  simp only [insert_then_delete, insert_char, line.len, h0, h1, and_self, if_true, Option.bind,
    delete_char, hne, if_false, hpos, hlen, e1, e2]
  simp only [Nat.add_sub_cancel, take_drop_insert _ _ _ hn, add_sub_cancel_right]

/-- C1 (counterexample): on the empty buffer produced by `init_editor`,
`insert_char('a')` followed by `delete_char()` leaves a document of one empty
line, which is not the prior document (no line at all). -/
theorem C1_empty_buffer_not_restored :
    (init_editor 24 80).buf = none ∧ (init_editor 24 80).cx = 0 ∧
    (init_editor 24 80).lines = [] ∧
    (insert_then_delete 97 (init_editor 24 80)).map editor.lines = some [⟨[]⟩] ∧
    (insert_then_delete 97 (init_editor 24 80)).map editor.lines
      ≠ some (init_editor 24 80).lines := by
  decide

/-- C1 (amended): `insert_char(c)` followed by `delete_char()` is defined and
restores `cx` (and `cy`) in every state that has a current line with
`0 ≤ cx ≤ len` and in the empty buffer with `cx = 0`; with a current line it
restores the whole list of lines and the current line, while on the empty buffer
it leaves the document made of one empty line. -/
theorem C1_insert_then_delete (c : Nat) (E : editor)
    (h : cursor_ok E ∨ (E.buf = none ∧ E.cx = 0)) :
    ∃ E2, insert_then_delete c E = some E2 ∧ E2.cx = E.cx ∧ E2.cy = E.cy ∧
      (cursor_ok E → E2.buf = E.buf ∧ E2.lines = E.lines) ∧
      (E.buf = none → E2.lines = [⟨[]⟩]) := by
  rcases h with h | ⟨hb, hx⟩
  · have h2 := h
    unfold cursor_ok at h2
    cases hb : E.buf with
    | none => simp [hb] at h2
    | some b =>
      rw [hb] at h2
      refine ⟨{ E with dirty := true }, insert_then_delete_line c E b hb h2.1 h2.2, rfl, rfl, ?_, ?_⟩
      · intro _
        exact ⟨hb, by simp [editor.lines]⟩
      · intro hn
        simp at hn
  · obtain ⟨cx, cy, ro, co, rows, cols, buf, fn, d⟩ := E
    simp only at hb hx
    subst hb hx
    refine ⟨_, rfl, ?_, ?_, ?_, ?_⟩
    · simp
    · rfl
    · intro hc
      simp [cursor_ok] at hc
    · intro _
      simp [editor.lines, buffer.lines]

/-- Witness for C1 (amended), at the sample document with the cursor after the
first character. -/
theorem C1_insert_then_delete_witness :
    (cursor_ok sample_two_lines ∨ (sample_two_lines.buf = none ∧ sample_two_lines.cx = 0)) ∧
    ∃ E2, insert_then_delete 120 sample_two_lines = some E2 ∧ E2.cx = sample_two_lines.cx ∧
      E2.cy = sample_two_lines.cy ∧
      (cursor_ok sample_two_lines →
        E2.buf = sample_two_lines.buf ∧ E2.lines = sample_two_lines.lines) ∧
      (sample_two_lines.buf = none → E2.lines = [⟨[]⟩]) :=
  ⟨Or.inl (by decide), C1_insert_then_delete 120 sample_two_lines (Or.inl (by decide))⟩

/-! ## Cursor validity -/

theorem cursor_ok_iff (E : editor) :
    cursor_ok E ↔ ∃ b, E.buf = some b ∧ 0 ≤ E.cx ∧ E.cx ≤ b.cur.len := by
  unfold cursor_ok
  cases E.buf with
  | none => simp
  | some b => simp

theorem clamp_cx_buf (l : line) (E : editor) : (clamp_cx l E).buf = E.buf := by
  unfold clamp_cx
  split <;> rfl

theorem clamp_cx_ok (E : editor) (b : buffer) (hb : E.buf = some b) (h0 : 0 ≤ E.cx) :
    cursor_ok (clamp_cx b.cur E) := by
  rw [cursor_ok_iff]
  refine ⟨b, by rw [clamp_cx_buf, hb], ?_⟩
  unfold clamp_cx
  have hl : 0 ≤ b.cur.len := by simp [line.len]
  split
  · exact ⟨hl, le_refl _⟩
  · exact ⟨h0, by omega⟩

theorem step_down_cx (E : editor) : (step_down E).cx = E.cx := by
  unfold step_down
  split <;> rfl

theorem step_up_cx (E : editor) : (step_up E).cx = E.cx := by
  unfold step_up
  split <;> rfl

theorem step_down_buf (E : editor) (h : E.buf ≠ none) : (step_down E).buf ≠ none := by
  unfold step_down
  split
  · simp
  · exact h

theorem step_up_buf (E : editor) (h : E.buf ≠ none) : (step_up E).buf ≠ none := by
  unfold step_up
  split
  · simp
  · exact h

theorem iterate_step_down (n : Nat) (E : editor) (h : E.buf ≠ none) :
    (Nat.iterate step_down n E).cx = E.cx ∧ (Nat.iterate step_down n E).buf ≠ none := by
  induction n generalizing E with
  | zero => exact ⟨rfl, h⟩
  | succ k ih =>
    have := ih (step_down E) (step_down_buf E h)
    simpa [Nat.iterate, step_down_cx] using this

theorem iterate_step_up (n : Nat) (E : editor) (h : E.buf ≠ none) :
    (Nat.iterate step_up n E).cx = E.cx ∧ (Nat.iterate step_up n E).buf ≠ none := by
  induction n generalizing E with
  | zero => exact ⟨rfl, h⟩
  | succ k ih =>
    have := ih (step_up E) (step_up_buf E h)
    simpa [Nat.iterate, step_up_cx] using this

theorem insert_char_line (c : Nat) (E : editor) (b : buffer) (hb : E.buf = some b)
    (h0 : 0 ≤ E.cx) (h1 : E.cx ≤ b.cur.len) :
    insert_char c E = some { E with
      buf := some { b with
        cur := ⟨b.cur.chars.take E.cx.toNat ++ (c % 256) :: b.cur.chars.drop E.cx.toNat⟩ }
      cx := E.cx + 1
      dirty := true } := by
  simp only [insert_char, hb, h0, h1, and_self, if_true]

theorem delete_char_inside (E : editor) (b : buffer) (hb : E.buf = some b)
    (h0 : 0 < E.cx) (h1 : E.cx ≤ b.cur.len) :
    delete_char E = some { E with
      buf := some { b with
        cur := ⟨b.cur.chars.take (E.cx.toNat - 1) ++ b.cur.chars.drop E.cx.toNat⟩ }
      cx := E.cx - 1
      dirty := true } := by
  have hz : ¬ (E.cx = 0 ∧ b.before = []) := by omega
  have hp : E.cx > 0 := h0
  simp only [delete_char, hb, hz, hp, h1, if_true, if_false]

theorem delete_char_join (E : editor) (p : line) (ps : List line) (cur : line)
    (after : List line) (hb : E.buf = some ⟨p :: ps, cur, after⟩) (h0 : E.cx = 0) :
    delete_char E = some { E with
      buf := some ⟨ps, ⟨p.chars ++ cur.chars⟩, after⟩
      cx := p.len
      cy := E.cy - 1
      dirty := true } := by
  have hp : ¬ E.cx > 0 := by omega
  simp only [delete_char, hb, hp, if_false]
  simp

theorem delete_char_start (E : editor) (cur : line) (after : List line)
    (hb : E.buf = some ⟨[], cur, after⟩) (h0 : E.cx = 0) : delete_char E = some E := by
  simp only [delete_char, hb, h0, and_self, if_true]

theorem split_line_current (E : editor) (b : buffer) (hb : E.buf = some b)
    (h0 : 0 ≤ E.cx) (h1 : E.cx ≤ b.cur.len) :
    split_line E = some { E with
      buf := some ⟨⟨b.cur.chars.take E.cx.toNat⟩ :: b.before,
                   ⟨strcpy_from b.cur.chars E.cx.toNat⟩, b.after⟩
      cx := 0
      cy := E.cy + 1
      dirty := true } := by
  simp only [split_line, hb, h0, h1, and_self, if_true]

theorem insert_char_ok (c : Nat) (E : editor) (h : cursor_ok E) :
    ∃ E1, insert_char c E = some E1 ∧ cursor_ok E1 := by
  obtain ⟨b, hb, h0, h1⟩ := (cursor_ok_iff E).1 h
  refine ⟨_, insert_char_line c E b hb h0 h1, ?_⟩
  rw [cursor_ok_iff]
  refine ⟨_, rfl, ?_, ?_⟩
  · simp only; omega
  · simp only [line.len] at h1 ⊢
    simp
    omega

theorem delete_char_ok (E : editor) (h : cursor_ok E) :
    ∃ E1, delete_char E = some E1 ∧ cursor_ok E1 := by
  obtain ⟨b, hb, h0, h1⟩ := (cursor_ok_iff E).1 h
  by_cases hp : 0 < E.cx
  · refine ⟨_, delete_char_inside E b hb hp h1, ?_⟩
    rw [cursor_ok_iff]
    refine ⟨_, rfl, ?_, ?_⟩
    · simp only; omega
    · simp only [line.len] at h1 ⊢
      simp
      omega
  · have hx : E.cx = 0 := by omega
    obtain ⟨before, cur, after⟩ := b
    cases before with
    | nil => exact ⟨E, delete_char_start E cur after hb hx, h⟩
    | cons p ps =>
      refine ⟨_, delete_char_join E p ps cur after hb hx, ?_⟩
      rw [cursor_ok_iff]
      refine ⟨_, rfl, ?_, ?_⟩
      · simp [line.len]
      · simp [line.len]

theorem split_line_ok (E : editor) (h : cursor_ok E) :
    ∃ E1, split_line E = some E1 ∧ cursor_ok E1 := by
  obtain ⟨b, hb, h0, h1⟩ := (cursor_ok_iff E).1 h
  refine ⟨_, split_line_current E b hb h0 h1, ?_⟩
  rw [cursor_ok_iff]
  exact ⟨_, rfl, le_refl _, by simp [line.len]⟩

theorem move_cursor_left (E : editor) :
    move_cursor 104 E = some (if E.cx > 0 then { E with cx := E.cx - 1 } else E) := rfl

theorem move_cursor_right (E : editor) (b : buffer) (hb : E.buf = some b) :
    move_cursor 108 E = some (if E.cx < b.cur.len then { E with cx := E.cx + 1 } else E) := by
  simp [move_cursor, hb]

theorem move_cursor_up (E : editor) (p : line) (ps : List line) (cur : line)
    (after : List line) (hb : E.buf = some ⟨p :: ps, cur, after⟩) :
    move_cursor 107 E = some (clamp_cx p (step_up E)) := by
  simp [move_cursor, hb]

theorem move_cursor_up_first (E : editor) (cur : line) (after : List line)
    (hb : E.buf = some ⟨[], cur, after⟩) : move_cursor 107 E = some E := by
  simp [move_cursor, hb]

theorem move_cursor_down (E : editor) (before : List line) (cur n : line)
    (ns : List line) (hb : E.buf = some ⟨before, cur, n :: ns⟩) :
    move_cursor 106 E = some (clamp_cx n (step_down E)) := by
  simp [move_cursor, hb]

theorem move_cursor_down_last (E : editor) (before : List line) (cur : line)
    (hb : E.buf = some ⟨before, cur, []⟩) : move_cursor 106 E = some E := by
  simp [move_cursor, hb]

theorem move_cursor_home (E : editor) : move_cursor 48 E = some { E with cx := 0 } := rfl

theorem move_cursor_end (E : editor) (b : buffer) (hb : E.buf = some b) :
    move_cursor 36 E = some { E with cx := b.cur.len } := by
  simp [move_cursor, hb]

theorem move_cursor_page_down (E : editor) (b : buffer)
    (hb : (Nat.iterate step_down (half_page E) E).buf = some b) :
    move_cursor 74 E = some (clamp_cx b.cur (Nat.iterate step_down (half_page E) E)) := by
  simp [move_cursor, hb]

theorem move_cursor_page_up (E : editor) (b : buffer)
    (hb : (Nat.iterate step_up (half_page E) E).buf = some b) :
    move_cursor 75 E = some (clamp_cx b.cur (Nat.iterate step_up (half_page E) E)) := by
  simp [move_cursor, hb]

theorem move_cursor_other (key : Nat) (E : editor) (h : key ≠ 104 ∧ key ≠ 108 ∧ key ≠ 107 ∧
    key ≠ 106 ∧ key ≠ 48 ∧ key ≠ 36 ∧ key ≠ 74 ∧ key ≠ 75) : move_cursor key E = some E := by
  obtain ⟨k1, k2, k3, k4, k5, k6, k7, k8⟩ := h
  simp [move_cursor, k1, k2, k3, k4, k5, k6, k7, k8]

theorem move_cursor_ok (key : Nat) (E : editor) (h : cursor_ok E) :
    ∃ E1, move_cursor key E = some E1 ∧ cursor_ok E1 := by
  obtain ⟨b, hb, h0, h1⟩ := (cursor_ok_iff E).1 h
  by_cases k1 : key = 104
  · subst k1
    refine ⟨_, move_cursor_left E, ?_⟩
    rw [cursor_ok_iff]
    split_ifs with hc
    · exact ⟨b, hb, by simp only; omega, by simp only; omega⟩
    · exact ⟨b, hb, h0, h1⟩
  by_cases k2 : key = 108
  · subst k2
    refine ⟨_, move_cursor_right E b hb, ?_⟩
    rw [cursor_ok_iff]
    split_ifs with hc
    · exact ⟨b, hb, by simp only; omega, by simp only; omega⟩
    · exact ⟨b, hb, h0, h1⟩
  by_cases k3 : key = 107
  · subst k3
    obtain ⟨before, cur, after⟩ := b
    cases before with
    | nil => exact ⟨E, move_cursor_up_first E cur after hb, h⟩
    | cons p ps =>
      refine ⟨_, move_cursor_up E p ps cur after hb, ?_⟩
      exact clamp_cx_ok (step_up E) ⟨ps, p, cur :: after⟩ (by simp [step_up, hb])
        (by rw [step_up_cx]; exact h0)
  by_cases k4 : key = 106
  · subst k4
    obtain ⟨before, cur, after⟩ := b
    cases after with
    | nil => exact ⟨E, move_cursor_down_last E before cur hb, h⟩
    | cons n ns =>
      refine ⟨_, move_cursor_down E before cur n ns hb, ?_⟩
      exact clamp_cx_ok (step_down E) ⟨cur :: before, n, ns⟩ (by simp [step_down, hb])
        (by rw [step_down_cx]; exact h0)
  by_cases k5 : key = 48
  · subst k5
    refine ⟨_, move_cursor_home E, ?_⟩
    rw [cursor_ok_iff]
    exact ⟨b, hb, le_refl _, by simp [line.len]⟩
  by_cases k6 : key = 36
  · subst k6
    refine ⟨_, move_cursor_end E b hb, ?_⟩
    rw [cursor_ok_iff]
    exact ⟨b, hb, by simp [line.len], le_refl _⟩
  have hne : E.buf ≠ none := by simp [hb]
  by_cases k7 : key = 74
  · subst k7
    obtain ⟨hcx, hbuf⟩ := iterate_step_down (half_page E) E hne
    cases hE : (Nat.iterate step_down (half_page E) E).buf with
    | none => exact absurd hE hbuf
    | some b1 =>
      exact ⟨_, move_cursor_page_down E b1 hE, clamp_cx_ok _ b1 hE (by rw [hcx]; exact h0)⟩
  by_cases k8 : key = 75
  · subst k8
    obtain ⟨hcx, hbuf⟩ := iterate_step_up (half_page E) E hne
    cases hE : (Nat.iterate step_up (half_page E) E).buf with
    | none => exact absurd hE hbuf
    | some b1 =>
      exact ⟨_, move_cursor_page_up E b1 hE, clamp_cx_ok _ b1 hE (by rw [hcx]; exact h0)⟩
  exact ⟨E, move_cursor_other key E ⟨k1, k2, k3, k4, k5, k6, k7, k8⟩, h⟩

theorem command_run_ok (c : command) (E : editor) (h : cursor_ok E) :
    ∃ E1, c.run E = some E1 ∧ cursor_ok E1 := by
  cases c with
  | move key => exact move_cursor_ok key E h
  | insert ch => exact insert_char_ok ch E h
  | delete => exact delete_char_ok E h
  | split => exact split_line_ok E h

theorem run_all_ok (cs : List command) (E : editor) (h : cursor_ok E) :
    ∃ E1, run_all cs E = some E1 ∧ cursor_ok E1 := by
  induction cs generalizing E with
  | nil => exact ⟨E, rfl, h⟩
  | cons c cs ih =>
    obtain ⟨E1, h1, hok⟩ := command_run_ok c E h
    obtain ⟨E2, h2, hok2⟩ := ih E1 hok
    exact ⟨E2, by simp [run_all, h1, h2], hok2⟩

/-- C3: cursor validity (a current line with `0 ≤ cx ≤ len`) is preserved by
every call of `move_cursor` (whatever the key), `insert_char`, `delete_char` and
`split_line`, each of which is defined on a valid state, and therefore by every
sequence of such calls. -/
theorem C3_cursor_clamp (E : editor) (h : cursor_ok E) :
    (∀ key, ∃ E1, move_cursor key E = some E1 ∧ cursor_ok E1) ∧
    (∀ c, ∃ E1, insert_char c E = some E1 ∧ cursor_ok E1) ∧
    (∃ E1, delete_char E = some E1 ∧ cursor_ok E1) ∧
    (∃ E1, split_line E = some E1 ∧ cursor_ok E1) ∧
    (∀ cs : List command, ∃ E1, run_all cs E = some E1 ∧ cursor_ok E1) :=
  ⟨fun key => move_cursor_ok key E h, fun c => insert_char_ok c E h, delete_char_ok E h,
    split_line_ok E h, fun cs => run_all_ok cs E h⟩

/-- Witness for C3, at the sample document with the cursor after the first
character. -/
theorem C3_cursor_clamp_witness :
    cursor_ok sample_two_lines ∧
    ((∀ key, ∃ E1, move_cursor key sample_two_lines = some E1 ∧ cursor_ok E1) ∧
    (∀ c, ∃ E1, insert_char c sample_two_lines = some E1 ∧ cursor_ok E1) ∧
    (∃ E1, delete_char sample_two_lines = some E1 ∧ cursor_ok E1) ∧
    (∃ E1, split_line sample_two_lines = some E1 ∧ cursor_ok E1) ∧
    (∀ cs : List command, ∃ E1, run_all cs sample_two_lines = some E1 ∧ cursor_ok E1)) :=
  ⟨by decide, C3_cursor_clamp sample_two_lines (by decide)⟩

/-! ## Splitting a line -/

theorem split_then_delete_eq (E : editor) (b : buffer) (hb : E.buf = some b)
    (h0 : 0 ≤ E.cx) (h1 : E.cx ≤ b.cur.len) :
    split_then_delete E = some { E with
      buf := some { b with
        cur := ⟨b.cur.chars.take E.cx.toNat ++ strcpy_from b.cur.chars E.cx.toNat⟩ }
      dirty := true } := by
  have hlen : ((b.cur.chars.take E.cx.toNat).length : Int) = E.cx := by
    simp only [line.len] at h1
    simp
    omega
  rw [split_then_delete, split_line_current E b hb h0 h1]
  rw [Option.some_bind]
  rw [delete_char_join _ ⟨b.cur.chars.take E.cx.toNat⟩ b.before
    ⟨strcpy_from b.cur.chars E.cx.toNat⟩ b.after rfl rfl]
  simp only [line.len, hlen, add_sub_cancel_right]

theorem strcpy_from_no_nul (chars : List Nat) (n : Nat) (h : ∀ ch ∈ chars.drop n, ch ≠ 0) :
    strcpy_from chars n = chars.drop n := by
  unfold strcpy_from
  rw [List.takeWhile_eq_self_iff]
  intro ch hch
  simpa using h ch hch

/-- On a current line that holds no NUL byte from the cursor on, `split_line()`
followed by `delete_char()` restores the state, the dirty flag being set. -/
theorem split_then_delete_no_nul (E : editor) (b : buffer) (hb : E.buf = some b)
    (h0 : 0 ≤ E.cx) (h1 : E.cx ≤ b.cur.len) (hnul : ∀ ch ∈ b.cur.chars.drop E.cx.toNat, ch ≠ 0) :
    split_then_delete E = some { E with dirty := true } := by
  rw [split_then_delete_eq E b hb h0 h1, strcpy_from_no_nul _ _ hnul, List.take_append_drop]
  obtain ⟨cx, cy, ro, co, rows, cols, buf, fn, d⟩ := E
  simp only at hb
  subst hb
  rfl

/-- C2 (the code at the failing input): the file of the bytes `'a'`, NUL, `'b'`,
`'\n'` loads as one line of three bytes with the cursor at its start; there
`split_line()` followed by `delete_char()` leaves the single line `"a"`, the
bytes NUL and `'b'` being lost: `save_file` would then write `"a\n"` instead of the
four bytes loaded. -/
theorem C2_split_then_delete_loses_bytes :
    open_file (some [97, 0, 98, 10]) [102] (init_editor 24 80) = sample_nul_line ∧
    cursor_ok sample_nul_line ∧
    sample_nul_line.lines = [⟨[97, 0, 98]⟩] ∧
    save_bytes sample_nul_line = [97, 0, 98, 10] ∧
    (split_then_delete sample_nul_line).map editor.lines = some [⟨[97]⟩] ∧
    (split_then_delete sample_nul_line).map save_bytes = some [97, 10] := by
  decide

/-- C10 (the code at the failing input): on the line of the three bytes `'a'`,
NUL, `'b'` with `cx = 0`, `split_line()` leaves an empty line followed by the
new current line `"a"`: the new line does not hold everything from `cx` onward,
and the two lines concatenated are not the old line (`save_file` would write
`"\na\n"`). -/
theorem C10_split_line_stops_at_nul :
    open_file (some [97, 0, 98, 10]) [102] (init_editor 24 80) = sample_nul_line ∧
    cursor_ok sample_nul_line ∧
    sample_nul_line.lines = [⟨[97, 0, 98]⟩] ∧
    save_bytes sample_nul_line = [97, 0, 98, 10] ∧
    split_line sample_nul_line = some { sample_nul_line with
      buf := some ⟨[⟨[]⟩], ⟨[97]⟩, []⟩, cx := 0, cy := 1, dirty := true } ∧
    (split_line sample_nul_line).map save_bytes = some [10, 97, 10] := by
  decide

/-! ## Rendering -/

/-- C4 (the code at the failing input): for the two-line document `"a"`, `"b"`
on two terminal rows with `rowoff = 0`, the frame body shows `"a"` on row 0 and
the filler `~` on row 1, although the document has a line number 1. -/
theorem C4_second_row_is_filler :
    sample_two_rows.lines = [⟨[97]⟩, ⟨[98]⟩] ∧
    draw_body sample_two_rows
      = some [[97] ++ ERASE_EOL ++ CRLF, TILDE ++ ERASE_EOL ++ CRLF] := by
  decide

/-! ## Viewport -/

theorem row_cx_to_rx_some (row : List Nat) (cx : Int) (h : cx ≤ row.length + 1) :
    row_cx_to_rx row cx = some ((List.range cx.toNat).foldl (rx_step row) 0) := by
  simp [row_cx_to_rx, h]

theorem row_cx_to_rx_isSome (row : List Nat) (cx : Int) :
    (row_cx_to_rx row cx).isSome ↔ cx ≤ row.length + 1 := by
  unfold row_cx_to_rx
  split_ifs with h <;> simp [h]

theorem scroll_vertical_eq (E : editor) :
    scroll_vertical E = { E with
      rowoff :=
        if E.cy ≥ (if E.cy < E.rowoff then E.cy else E.rowoff) + E.rows then E.cy - E.rows + 1
        else (if E.cy < E.rowoff then E.cy else E.rowoff) } := by
  unfold scroll_vertical
  by_cases h1 : E.cy < E.rowoff
  · simp only [h1, if_true]
    split_ifs <;> rfl
  · simp only [h1, if_false]
    split_ifs <;> rfl

theorem scroll_horizontal_eq (rx : Int) (E : editor) :
    scroll_horizontal rx E = { E with
      coloff :=
        if rx ≥ (if rx < E.coloff then rx else E.coloff) + E.cols then rx - E.cols + 1
        else (if rx < E.coloff then rx else E.coloff) } := by
  unfold scroll_horizontal
  by_cases h1 : rx < E.coloff
  · simp only [h1, if_true]
    split_ifs <;> rfl
  · simp only [h1, if_false]
    split_ifs <;> rfl

/-- The state `scroll()` returns when the visual column of the cursor is `rx`:
only `rowoff` and `coloff` change. -/
theorem scroll_eq (E : editor) (b : buffer) (rx : Int) (hb : E.buf = some b)
    (hrx : row_cx_to_rx b.cur.chars E.cx = some rx) :
    scroll E = some { E with
      rowoff :=
        if E.cy ≥ (if E.cy < E.rowoff then E.cy else E.rowoff) + E.rows then E.cy - E.rows + 1
        else (if E.cy < E.rowoff then E.cy else E.rowoff)
      coloff :=
        if rx ≥ (if rx < E.coloff then rx else E.coloff) + E.cols then rx - E.cols + 1
        else (if rx < E.coloff then rx else E.coloff) } := by
  unfold scroll
  simp only [scroll_vertical_eq, hb, hrx, scroll_horizontal_eq]

theorem scroll_none (E : editor) (b : buffer) (hb : E.buf = some b)
    (hrx : row_cx_to_rx b.cur.chars E.cx = none) : scroll E = none := by
  unfold scroll
  simp only [scroll_vertical_eq, hb, hrx]

/-- C5: in a state with a current line, `rows ≥ 1` and `cols ≥ 1`, `scroll()`
returns whenever `cx ≤ len + 1` (in particular for every valid cursor; otherwise
`row_cx_to_rx` reads outside the line), and whenever it returns, the new state
has `rowoff ≤ cy < rowoff + rows` and the visual column of the cursor lies in
`[coloff, coloff + cols)`. -/
theorem C5_scroll_viewport (E : editor) (b : buffer) (hb : E.buf = some b)
    (hr : 1 ≤ E.rows) (hc : 1 ≤ E.cols) :
    ((scroll E).isSome ↔ E.cx ≤ b.cur.len + 1) ∧
    ∀ E1, scroll E = some E1 →
      E1.buf = some b ∧ E1.rowoff ≤ E1.cy ∧ E1.cy < E1.rowoff + E1.rows ∧
      ∃ rx, row_cx_to_rx b.cur.chars E1.cx = some rx ∧
        E1.coloff ≤ rx ∧ rx < E1.coloff + E1.cols := by
  cases hrx : row_cx_to_rx b.cur.chars E.cx with
  | none =>
    have hn : ¬ E.cx ≤ b.cur.len + 1 := by
      intro hle
      have := (row_cx_to_rx_isSome b.cur.chars E.cx).2 hle
      simp [hrx] at this
    simp [scroll_none E b hb hrx, hn]
  | some rx =>
    have hs : E.cx ≤ b.cur.len + 1 := by
      apply (row_cx_to_rx_isSome b.cur.chars E.cx).1
      simp [hrx]
    rw [scroll_eq E b rx hb hrx]
    refine ⟨by simp [hs], ?_⟩
    intro E1 hE1
    simp only [Option.some.injEq] at hE1
    subst hE1
    refine ⟨hb, ?_, ?_, rx, hrx, ?_, ?_⟩ <;> simp only <;> split_ifs <;> omega

/-- Witness for C5, at the sample document on a terminal of 24 rows and 80
columns. -/
theorem C5_scroll_viewport_witness :
    sample_two_lines.buf = some ⟨[], ⟨[97, 98]⟩, [⟨[99]⟩]⟩ ∧
    1 ≤ sample_two_lines.rows ∧ 1 ≤ sample_two_lines.cols ∧
    (((scroll sample_two_lines).isSome ↔
        sample_two_lines.cx ≤ (buffer.mk [] ⟨[97, 98]⟩ [⟨[99]⟩]).cur.len + 1) ∧
      ∀ E1, scroll sample_two_lines = some E1 →
        E1.buf = some ⟨[], ⟨[97, 98]⟩, [⟨[99]⟩]⟩ ∧ E1.rowoff ≤ E1.cy ∧
        E1.cy < E1.rowoff + E1.rows ∧
        ∃ rx, row_cx_to_rx (buffer.mk [] ⟨[97, 98]⟩ [⟨[99]⟩]).cur.chars E1.cx = some rx ∧
          E1.coloff ≤ rx ∧ rx < E1.coloff + E1.cols) :=
  ⟨rfl, by decide, by decide,
    C5_scroll_viewport sample_two_lines ⟨[], ⟨[97, 98]⟩, [⟨[99]⟩]⟩ rfl (by decide) (by decide)⟩

/-! ## Tab expansion -/

theorem rx_step_nonneg (row : List Nat) (rx : Int) (j : Nat) (h : 0 ≤ rx) :
    0 ≤ rx_step row rx j := by
  unfold rx_step TAB_STOP
  rw [Int.tmod_eq_emod h (by norm_num)]
  split_ifs <;> omega

theorem rx_loop_nonneg (row : List Nat) (n : Nat) :
    0 ≤ (List.range n).foldl (rx_step row) 0 := by
  induction n with
  | zero => simp
  | succ k ih =>
    rw [List.range_succ, List.foldl_append]
    exact rx_step_nonneg row _ k ih

theorem rx_loop_succ (row : List Nat) (n : Nat) :
    (List.range (n + 1)).foldl (rx_step row) 0
      = rx_step row ((List.range n).foldl (rx_step row) 0) n := by
  rw [List.range_succ, List.foldl_append]
  rfl

/-- C6: `row_cx_to_rx(line, 0) = 0`, and for an offset `1 ≤ cx ≤ len` the value
at `cx` is the smallest multiple of the tab stop strictly greater than the value
at `cx - 1` when the byte at `cx - 1` is a tab (9), and that value plus one
otherwise; the line `"\t"` has visual columns 0, 8 and the line `"a\tb"` has
visual columns 0, 1, 8, 9. -/
theorem C6_tab_expansion (row : List Nat) (cx : Int) (h1 : 1 ≤ cx) (h2 : cx ≤ row.length) :
    row_cx_to_rx row 0 = some 0 ∧
    (∃ r v, row_cx_to_rx row (cx - 1) = some r ∧ row_cx_to_rx row cx = some v ∧
      (row.getD (cx - 1).toNat 0 = 9 →
        TAB_STOP ∣ v ∧ r < v ∧ ∀ m : Int, TAB_STOP ∣ m → r < m → v ≤ m) ∧
      (row.getD (cx - 1).toNat 0 ≠ 9 → v = r + 1)) ∧
    [row_cx_to_rx [9] 0, row_cx_to_rx [9] 1] = [some 0, some 8] ∧
    [row_cx_to_rx [97, 9, 98] 0, row_cx_to_rx [97, 9, 98] 1, row_cx_to_rx [97, 9, 98] 2,
      row_cx_to_rx [97, 9, 98] 3] = [some 0, some 1, some 8, some 9] := by
  refine ⟨?_, ?_, by decide, by decide⟩
  · rw [row_cx_to_rx_some row 0 (by omega)]
    rfl
  · have hk : cx.toNat = (cx - 1).toNat + 1 := by omega
    refine ⟨_, _, row_cx_to_rx_some row (cx - 1) (by omega),
      row_cx_to_rx_some row cx (by omega), ?_, ?_⟩
    · intro htab
      have hr := rx_loop_nonneg row (cx - 1).toNat
      rw [hk, rx_loop_succ]
      generalize (List.range (cx - 1).toNat).foldl (rx_step row) 0 = r at hr ⊢
      unfold rx_step TAB_STOP
      rw [if_pos htab, Int.tmod_eq_emod hr (by norm_num)]
      refine ⟨by omega, by omega, ?_⟩
      intro m hm hlt
      omega
    · intro htab
      rw [hk, rx_loop_succ]
      unfold rx_step
      rw [if_neg htab]

/-- Witness for C6, at offset 2 of the line `"a\tb"`. -/
theorem C6_tab_expansion_witness :
    (1 : Int) ≤ 2 ∧ (2 : Int) ≤ ([97, 9, 98] : List Nat).length ∧
    ∃ r v, row_cx_to_rx [97, 9, 98] (2 - 1) = some r ∧ row_cx_to_rx [97, 9, 98] 2 = some v ∧
      (([97, 9, 98] : List Nat).getD ((2 : Int) - 1).toNat 0 = 9 →
        TAB_STOP ∣ v ∧ r < v ∧ ∀ m : Int, TAB_STOP ∣ m → r < m → v ≤ m) ∧
      (([97, 9, 98] : List Nat).getD ((2 : Int) - 1).toNat 0 ≠ 9 → v = r + 1) :=
  ⟨by decide, by decide, (C6_tab_expansion [97, 9, 98] 2 (by decide) (by decide)).2.1⟩

/-! ## Postcondition of `insert_char` -/

/-- C9: for a character `c` (a byte), on a buffer without a current line
`insert_char(c)` makes the document the single line `[c]`, first and current; on
a current line with `0 ≤ cx ≤ len` it makes the line its first `cx` bytes, then
`c`, then the remaining bytes (one byte longer) and keeps the lines before and
after; in both cases `cx` grows by one, `cy` is unchanged and `dirty` is set. -/
theorem C9_insert_char (c : Nat) (E : editor) (hc : c < 256)
    (hv : ∀ b, E.buf = some b → 0 ≤ E.cx ∧ E.cx ≤ b.cur.len) :
    ∃ E1, insert_char c E = some E1 ∧
      E1.cx = E.cx + 1 ∧ E1.cy = E.cy ∧ E1.dirty = true ∧
      (E.buf = none → E1.buf = some ⟨[], ⟨[c]⟩, []⟩ ∧ E1.lines = [⟨[c]⟩]) ∧
      (∀ b, E.buf = some b →
        E1.buf = some ⟨b.before,
          ⟨b.cur.chars.take E.cx.toNat ++ [c] ++ b.cur.chars.drop E.cx.toNat⟩, b.after⟩ ∧
        E1.lines = b.before.reverse ++
          ⟨b.cur.chars.take E.cx.toNat ++ [c] ++ b.cur.chars.drop E.cx.toNat⟩ :: b.after ∧
        (E1.current.map line.len) = some (b.cur.len + 1)) := by
  have hmod : c % 256 = c := Nat.mod_eq_of_lt hc
  cases hb : E.buf with
  | none =>
    refine ⟨{ E with buf := some ⟨[], ⟨[c]⟩, []⟩, cx := E.cx + 1, dirty := true }, ?_,
      rfl, rfl, rfl, ?_, ?_⟩
    · simp only [insert_char, hb, hmod]
    · intro _
      exact ⟨rfl, rfl⟩
    · intro b hb2
      simp at hb2
  | some b =>
    obtain ⟨h0, h1⟩ := hv b hb
    refine ⟨_, insert_char_line c E b hb h0 h1, rfl, rfl, rfl, ?_, ?_⟩
    · intro hn
      simp at hn
    · intro b2 hb2
      simp only [Option.some.injEq] at hb2
      subst hb2
      simp only [line.len] at h1
      refine ⟨by simp [hmod], by simp [hmod, editor.lines, buffer.lines], ?_⟩
      simp [editor.current, line.len]
      omega

/-- Witness for C9: the byte `'x'` inserted after the first character of the
sample document. -/
theorem C9_insert_char_witness :
    (120 < 256 ∧ ∀ b, sample_two_lines.buf = some b →
      0 ≤ sample_two_lines.cx ∧ sample_two_lines.cx ≤ b.cur.len) ∧
    ∃ E1, insert_char 120 sample_two_lines = some E1 ∧
      E1.cx = sample_two_lines.cx + 1 ∧ E1.cy = sample_two_lines.cy ∧ E1.dirty = true ∧
      (sample_two_lines.buf = none → E1.buf = some ⟨[], ⟨[120]⟩, []⟩ ∧ E1.lines = [⟨[120]⟩]) ∧
      (∀ b, sample_two_lines.buf = some b →
        E1.buf = some ⟨b.before,
          ⟨b.cur.chars.take sample_two_lines.cx.toNat ++ [120]
            ++ b.cur.chars.drop sample_two_lines.cx.toNat⟩, b.after⟩ ∧
        E1.lines = b.before.reverse ++
          ⟨b.cur.chars.take sample_two_lines.cx.toNat ++ [120]
            ++ b.cur.chars.drop sample_two_lines.cx.toNat⟩ :: b.after ∧
        (E1.current.map line.len) = some (b.cur.len + 1)) :=
  have hv : ∀ b, sample_two_lines.buf = some b →
      0 ≤ sample_two_lines.cx ∧ sample_two_lines.cx ≤ b.cur.len := by
    intro b hb
    have : b = ⟨[], ⟨[97, 98]⟩, [⟨[99]⟩]⟩ := by
      simp only [sample_two_lines, Option.some.injEq] at hb
      exact hb.symm
    subst this
    decide
  ⟨⟨by decide, hv⟩, C9_insert_char 120 sample_two_lines (by decide) hv⟩

/-! ## Loading and saving -/

theorem getlines_flatten (content : List Nat) : (getlines content).flatten = content := by
  induction content with
  | nil => rfl
  | cons c cs ih =>
    unfold getlines
    split_ifs with h
    · subst h
      simp [ih]
    · cases hg : getlines cs with
      | nil =>
        rw [hg] at ih
        simp only [List.flatten_nil] at ih
        simp [← ih]
      | cons l ls =>
        rw [hg] at ih
        simp only [List.flatten_cons] at ih ⊢
        rw [← ih]
        rfl

theorem getlines_body (b rest : List Nat) (h : 10 ∉ b) :
    getlines (b ++ 10 :: rest) = (b ++ [10]) :: getlines rest := by
  induction b with
  | nil => simp [getlines]
  | cons c cs ih =>
    have hc : c ≠ 10 := fun e => h (by simp [e])
    have hcs : 10 ∉ cs := fun e => h (by simp [e])
    have e := ih hcs
    simp only [List.cons_append, getlines, hc, if_false]
    rw [List.append_eq, e]

theorem getlines_bodies (bodies : List (List Nat)) (h : ∀ b ∈ bodies, 10 ∉ b) :
    getlines (bodies.map (fun b => b ++ [10])).flatten = bodies.map (fun b => b ++ [10]) := by
  induction bodies with
  | nil => rfl
  | cons b bs ih =>
    have hb : 10 ∉ b := h b (by simp)
    have hbs : ∀ x ∈ bs, 10 ∉ x := fun x hx => h x (by simp [hx])
    simp only [List.map_cons, List.flatten_cons, List.append_assoc, List.singleton_append]
    rw [getlines_body b _ hb, ih hbs]

theorem strip_eol_body (b : List Nat) (h10 : 10 ∉ b) (h13 : b.getLast? ≠ some 13) :
    strip_eol (b ++ [10]) = b := by
  unfold strip_eol
  rw [List.rdropWhile_concat_pos _ _ _ (by simp), List.rdropWhile_eq_self_iff]
  intro hl
  have hmem : b.getLast hl ∈ b := List.getLast_mem hl
  have e10 : b.getLast hl ≠ 10 := fun e => h10 (e ▸ hmem)
  have e13 : b.getLast hl ≠ 13 := fun e => h13 (by rw [List.getLast?_eq_getLast b hl, e])
  simp [e10, e13]

theorem rewind_lines (b : buffer) : b.rewind.lines = b.lines := by
  unfold buffer.rewind buffer.lines
  cases h : b.before.reverse with
  | nil => simp [h]
  | cons l ls => simp

theorem lines_of_rewind (E E1 : editor) (h : E1.buf = E.buf.map buffer.rewind) :
    E1.lines = E.lines := by
  unfold editor.lines
  rw [h]
  cases E.buf with
  | none => rfl
  | some b => exact rewind_lines b

theorem insert_line_lines (s : List Nat) (E : editor)
    (h : ∀ b, E.buf = some b → b.after = []) :
    (insert_line s E).lines = E.lines ++ [⟨s⟩] ∧
    ∀ b, (insert_line s E).buf = some b → b.after = [] := by
  cases hb : E.buf with
  | none =>
    simp only [insert_line, editor.lines, hb, buffer.lines]
    refine ⟨by simp, ?_⟩
    intro b hb2
    simp only [Option.some.injEq] at hb2
    subst hb2
    rfl
  | some b0 =>
    have ha := h b0 hb
    simp only [insert_line, editor.lines, hb, buffer.lines, ha]
    refine ⟨by simp, ?_⟩
    intro b hb2
    simp only [Option.some.injEq] at hb2
    subst hb2
    rfl

theorem load_lines (ls : List (List Nat)) (E : editor)
    (h : ∀ b, E.buf = some b → b.after = []) :
    (ls.foldl (fun E0 l => insert_line (strip_eol l) E0) E).lines
      = E.lines ++ ls.map (fun l => ⟨strip_eol l⟩) := by
  induction ls generalizing E with
  | nil => simp
  | cons l ls ih =>
    obtain ⟨h1, h2⟩ := insert_line_lines (strip_eol l) E h
    simp only [List.foldl_cons, List.map_cons]
    rw [ih _ h2, h1]
    simp

/-- The document `open_file` builds: one line per line read, without its
trailing terminators. -/
theorem open_file_lines (content name : List Nat) (E : editor) :
    (open_file (some content) name E).lines
      = (getlines content).map (fun l => ⟨strip_eol l⟩) := by
  have h := load_lines (getlines content) { E with buf := none, cy := 0 } (by simp)
  simp only [open_file]
  generalize (getlines content).foldl (fun E0 l => insert_line (strip_eol l) E0)
    { E with buf := none, cy := 0 } = E2 at h
  rw [lines_of_rewind E2 _ rfl, h]
  simp [editor.lines]

theorem save_file_named (E : editor) (f : List Nat) (inp : List (Option Nat))
    (h : E.filename = some f) :
    save_file E inp = ({ E with dirty := false }, inp, some (f, save_bytes E)) := by
  simp only [save_file, h]

theorem open_file_filename (content name : List Nat) (E : editor) :
    (open_file (some content) name E).filename = some (strdup name) := rfl

/-- C7: `open_file` on a file holding `content` followed by `save_file` writes,
under the name loaded, each line read by `getline` (the lines read make up
`content`) without its trailing `'\n'` and `'\r'` bytes and followed by one
`'\n'`; so when `content` is a sequence of lines that each end with one `'\n'`
not preceded by `'\r'`, the bytes written are `content`. -/
theorem C7_load_save_round_trip (content name : List Nat) (E : editor)
    (inp : List (Option Nat)) :
    (getlines content).flatten = content ∧
    (save_file (open_file (some content) name E) inp).2.2
      = some (strdup name, ((getlines content).map (fun l => strip_eol l ++ [10])).flatten) ∧
    (∀ bodies : List (List Nat), (∀ b ∈ bodies, 10 ∉ b ∧ b.getLast? ≠ some 13) →
      content = (bodies.map (fun b => b ++ [10])).flatten →
      (save_file (open_file (some content) name E) inp).2.2 = some (strdup name, content)) := by
  have hw : (save_file (open_file (some content) name E) inp).2.2
      = some (strdup name, ((getlines content).map (fun l => strip_eol l ++ [10])).flatten) := by
    rw [save_file_named _ _ inp (open_file_filename content name E)]
    simp only [save_bytes, open_file_lines, List.map_map]
    rfl
  refine ⟨getlines_flatten content, hw, ?_⟩
  intro bodies hb hc
  rw [hw, hc, getlines_bodies bodies (fun b h => (hb b h).1), List.map_map]
  congr 2
  apply congrArg
  apply List.map_congr_left
  intro b h
  simp only [Function.comp]
  rw [strip_eol_body b (hb b h).1 (hb b h).2]

/-- Witness for C7: the file `"abc\n\ndefg\n"` is written back unchanged. -/
theorem C7_load_save_round_trip_witness :
    ((∀ b ∈ [[97, 98, 99], [], [100, 101, 102, 103]], 10 ∉ b ∧ b.getLast? ≠ some 13) ∧
      [97, 98, 99, 10, 10, 100, 101, 102, 103, 10]
        = ([[97, 98, 99], [], [100, 101, 102, 103]].map (fun b => b ++ [10])).flatten) ∧
    (save_file (open_file (some [97, 98, 99, 10, 10, 100, 101, 102, 103, 10]) [102]
        (init_editor 24 80)) []).2.2
      = some (strdup [102], [97, 98, 99, 10, 10, 100, 101, 102, 103, 10]) :=
  ⟨⟨by decide, by decide⟩,
    (C7_load_save_round_trip [97, 98, 99, 10, 10, 100, 101, 102, 103, 10] [102]
      (init_editor 24 80) []).2.2 [[97, 98, 99], [], [100, 101, 102, 103]]
      (by decide) (by decide)⟩

/-! ## Motion keys -/

theorem unedited_refl (E : editor) : unedited E E := ⟨rfl, rfl, rfl⟩

theorem unedited_trans (E E1 E2 : editor) (h1 : unedited E E1) (h2 : unedited E1 E2) :
    unedited E E2 :=
  ⟨h2.1.trans h1.1, h2.2.1.trans h1.2.1, h2.2.2.trans h1.2.2⟩

theorem unedited_cx (E : editor) (x : Int) : unedited E { E with cx := x } := ⟨rfl, rfl, rfl⟩

theorem clamp_cx_unedited (l : line) (E : editor) : unedited E (clamp_cx l E) := by
  unfold clamp_cx
  split_ifs
  · exact unedited_cx E _
  · exact unedited_refl E

theorem step_down_unedited (E : editor) : unedited E (step_down E) := by
  unfold step_down
  split
  · next before cur n after hb =>
    refine ⟨?_, rfl, rfl⟩
    simp [editor.lines, hb, buffer.lines]
  · exact unedited_refl E

theorem step_up_unedited (E : editor) : unedited E (step_up E) := by
  unfold step_up
  split
  · next p before cur after hb =>
    refine ⟨?_, rfl, rfl⟩
    simp [editor.lines, hb, buffer.lines]
  · exact unedited_refl E

theorem iterate_step_down_unedited (n : Nat) (E : editor) :
    unedited E (Nat.iterate step_down n E) := by
  induction n generalizing E with
  | zero => exact unedited_refl E
  | succ k ih => exact unedited_trans E _ _ (step_down_unedited E) (ih (step_down E))

theorem iterate_step_up_unedited (n : Nat) (E : editor) :
    unedited E (Nat.iterate step_up n E) := by
  induction n generalizing E with
  | zero => exact unedited_refl E
  | succ k ih => exact unedited_trans E _ _ (step_up_unedited E) (ih (step_up E))

theorem unedited_buf (E E1 : editor) (h : unedited E E1) (hb : E.buf ≠ none) :
    E1.buf ≠ none := by
  intro h1
  have hl := h.1
  cases hE : E.buf with
  | none => exact hb hE
  | some b =>
    simp [editor.lines, h1, hE, buffer.lines] at hl

/-- With a current line, `move_cursor` returns and leaves the document, the
dirty flag and the file name unchanged, whatever the key. -/
theorem move_cursor_unedited (key : Nat) (E : editor) (hb : E.buf ≠ none) :
    ∃ E1, move_cursor key E = some E1 ∧ unedited E E1 := by
  cases hE : E.buf with
  | none => exact absurd hE hb
  | some b =>
  by_cases k1 : key = 104
  · subst k1
    refine ⟨_, move_cursor_left E, ?_⟩
    split_ifs
    · exact unedited_cx E _
    · exact unedited_refl E
  by_cases k2 : key = 108
  · subst k2
    refine ⟨_, move_cursor_right E b hE, ?_⟩
    split_ifs
    · exact unedited_cx E _
    · exact unedited_refl E
  by_cases k3 : key = 107
  · subst k3
    obtain ⟨before, cur, after⟩ := b
    cases before with
    | nil => exact ⟨E, move_cursor_up_first E cur after hE, unedited_refl E⟩
    | cons p ps =>
      exact ⟨_, move_cursor_up E p ps cur after hE,
        unedited_trans E _ _ (step_up_unedited E) (clamp_cx_unedited p _)⟩
  by_cases k4 : key = 106
  · subst k4
    obtain ⟨before, cur, after⟩ := b
    cases after with
    | nil => exact ⟨E, move_cursor_down_last E before cur hE, unedited_refl E⟩
    | cons n ns =>
      exact ⟨_, move_cursor_down E before cur n ns hE,
        unedited_trans E _ _ (step_down_unedited E) (clamp_cx_unedited n _)⟩
  by_cases k5 : key = 48
  · subst k5
    exact ⟨_, move_cursor_home E, unedited_cx E _⟩
  by_cases k6 : key = 36
  · subst k6
    exact ⟨_, move_cursor_end E b hE, unedited_cx E _⟩
  by_cases k7 : key = 74
  · subst k7
    have hu := iterate_step_down_unedited (half_page E) E
    cases hI : (Nat.iterate step_down (half_page E) E).buf with
    | none => exact absurd hI (unedited_buf E _ hu hb)
    | some b1 =>
      exact ⟨_, move_cursor_page_down E b1 hI,
        unedited_trans E _ _ hu (clamp_cx_unedited b1.cur _)⟩
  by_cases k8 : key = 75
  · subst k8
    have hu := iterate_step_up_unedited (half_page E) E
    cases hI : (Nat.iterate step_up (half_page E) E).buf with
    | none => exact absurd hI (unedited_buf E _ hu hb)
    | some b1 =>
      exact ⟨_, move_cursor_page_up E b1 hI,
        unedited_trans E _ _ hu (clamp_cx_unedited b1.cur _)⟩
  exact ⟨E, move_cursor_other key E ⟨k1, k2, k3, k4, k5, k6, k7, k8⟩, unedited_refl E⟩

/-- On a motion key `process_keypress` runs `move_cursor` and nothing else. -/
theorem process_keypress_motion (k : Nat) (hk : is_motion_key k) (E : editor)
    (rest : List (Option Nat)) :
    process_keypress E (some k :: rest) = outcome.of (move_cursor k E) rest := by
  rcases hk with h | h | h | h | h | h | h | h <;> subst h <;> rfl

theorem process_keys_motions (keys : List Nat) (hk : ∀ k ∈ keys, is_motion_key k)
    (E : editor) (hb : E.buf ≠ none) (rest : List (Option Nat)) :
    ∃ E1, process_keys keys.length E (keys.map some ++ rest) = outcome.running E1 rest none ∧
      unedited E E1 := by
  induction keys generalizing E with
  | nil => exact ⟨E, rfl, unedited_refl E⟩
  | cons k ks ih =>
    obtain ⟨E1, hm, hu⟩ := move_cursor_unedited k E hb
    have hstep : process_keypress E (some k :: (ks.map some ++ rest))
        = outcome.running E1 (ks.map some ++ rest) none := by
      rw [process_keypress_motion k (hk k (by simp)) E, hm]
      rfl
    obtain ⟨E2, h2, hu2⟩ := ih (fun x hx => hk x (by simp [hx])) E1 (unedited_buf E E1 hu hb)
    simp only [List.length_cons, List.map_cons, List.cons_append, process_keys, hstep]
    cases ks with
    | nil =>
      refine ⟨E1, ?_, hu⟩
      simp
    | cons k2 ks2 =>
      refine ⟨E2, ?_, unedited_trans E E1 E2 hu hu2⟩
      simp only [List.length_cons, Nat.add_one_ne_zero, if_false]
      exact h2

/-- C8: in a state with a current line, each of the keys `'h'`, `'j'`, `'k'`,
`'l'`, `'0'`, `'$'`, `'J'`, `'K'` makes `process_keypress` run `move_cursor`,
which returns and leaves the lines, the dirty flag and the file name unchanged;
so does every sequence of such keys, after which `save_file` writes the same
bytes; and after loading `"abc\n\ndefg\n"`, the keys `j j l l l l` and Ctrl-S
write exactly `"abc\n\ndefg\n"`. -/
theorem C8_motion_keys_never_edit (E : editor) (hb : E.buf ≠ none) :
    (∀ k rest, is_motion_key k →
      process_keypress E (some k :: rest) = outcome.of (move_cursor k E) rest ∧
      ∃ E1, process_keypress E (some k :: rest) = outcome.running E1 rest none ∧
        E1.lines = E.lines ∧ E1.dirty = E.dirty ∧ E1.filename = E.filename) ∧
    (∀ (keys : List Nat) (rest : List (Option Nat)), (∀ k ∈ keys, is_motion_key k) →
      ∃ E1, process_keys keys.length E (keys.map some ++ rest) = outcome.running E1 rest none ∧
        E1.lines = E.lines ∧ E1.dirty = E.dirty ∧ E1.filename = E.filename ∧
        save_bytes E1 = save_bytes E) ∧
    (process_keys 7
        (open_file (some [97, 98, 99, 10, 10, 100, 101, 102, 103, 10]) [102] (init_editor 24 80))
        [some 106, some 106, some 108, some 108, some 108, some 108, some 19]).file
      = some ([102], [97, 98, 99, 10, 10, 100, 101, 102, 103, 10]) := by
  refine ⟨?_, ?_, by decide⟩
  · intro k rest hk
    obtain ⟨E1, hm, hu⟩ := move_cursor_unedited k E hb
    have h := process_keypress_motion k hk E rest
    refine ⟨h, E1, ?_, hu⟩
    rw [h, hm]
    rfl
  · intro keys rest hk
    obtain ⟨E1, h1, hu⟩ := process_keys_motions keys hk E hb rest
    refine ⟨E1, h1, hu.1, hu.2.1, hu.2.2, ?_⟩
    simp only [save_bytes, hu.1]

/-- Witness for C8, at the sample document. -/
theorem C8_motion_keys_never_edit_witness :
    sample_two_lines.buf ≠ none ∧
    ∀ (keys : List Nat) (rest : List (Option Nat)), (∀ k ∈ keys, is_motion_key k) →
      ∃ E1, process_keys keys.length sample_two_lines (keys.map some ++ rest)
          = outcome.running E1 rest none ∧
        E1.lines = sample_two_lines.lines ∧ E1.dirty = sample_two_lines.dirty ∧
        E1.filename = sample_two_lines.filename ∧
        save_bytes E1 = save_bytes sample_two_lines :=
  ⟨by decide, (C8_motion_keys_never_edit sample_two_lines (by decide)).2.1⟩

/-! ## A session -/

/-- On the empty document, typing `"ab"`, Enter, `"c"` and one backspace leaves
the two lines `"ab"` and `""` with the cursor at column 0 of the second line. -/
theorem scenario_type_enter_backspace :
    (process_keys 5 (init_editor 24 80)
        [some 97, some 98, some 13, some 99, some 127]).state.map
      (fun E => (E.lines, E.cx, E.cy))
      = some ([⟨[97, 98]⟩, ⟨[]⟩], 0, 1) := by
  decide

/-! ## Postconditions of `delete_char` -/

/-- C11: with `cx == 0` and a predecessor `p` of the current line `cur`,
`delete_char()` replaces the two lines by the single line `p ++ cur`, keeps the
other lines in order (one line less, the former successors follow the joined
line), makes the joined line current, sets `cx` to the length `p` had, decrements
`cy` and sets `dirty`. -/
theorem C11_delete_char_join (E : editor) (p : line) (ps : List line) (cur : line)
    (after : List line) (hb : E.buf = some ⟨p :: ps, cur, after⟩) (h0 : E.cx = 0) :
    E.lines = ps.reverse ++ p :: cur :: after ∧
    ∃ E1, delete_char E = some E1 ∧
      E1.buf = some ⟨ps, ⟨p.chars ++ cur.chars⟩, after⟩ ∧
      E1.lines = ps.reverse ++ ⟨p.chars ++ cur.chars⟩ :: after ∧
      E1.lines.length + 1 = E.lines.length ∧
      E1.current = some ⟨p.chars ++ cur.chars⟩ ∧
      E1.cx = p.len ∧ E1.cy = E.cy - 1 ∧ E1.dirty = true := by
  have hl : E.lines = ps.reverse ++ p :: cur :: after := by
    simp [editor.lines, hb, buffer.lines]
  refine ⟨hl, _, delete_char_join E p ps cur after hb h0, rfl, rfl, ?_, rfl, rfl, rfl, rfl⟩
  rw [hl]
  simp [editor.lines, buffer.lines]
  omega

/-- Witness for C11: backspace at the start of the second of three lines. -/
theorem C11_delete_char_join_witness :
    (sample_second_line.buf = some ⟨⟨[97, 98]⟩ :: [], ⟨[99]⟩, [⟨[100]⟩]⟩ ∧
      sample_second_line.cx = 0) ∧
    sample_second_line.lines = [].reverse ++ ⟨[97, 98]⟩ :: ⟨[99]⟩ :: [⟨[100]⟩] ∧
    ∃ E1, delete_char sample_second_line = some E1 ∧
      E1.buf = some ⟨[], ⟨(line.mk [97, 98]).chars ++ (line.mk [99]).chars⟩, [⟨[100]⟩]⟩ ∧
      E1.lines = [].reverse ++
        ⟨(line.mk [97, 98]).chars ++ (line.mk [99]).chars⟩ :: [⟨[100]⟩] ∧
      E1.lines.length + 1 = sample_second_line.lines.length ∧
      E1.current = some ⟨(line.mk [97, 98]).chars ++ (line.mk [99]).chars⟩ ∧
      E1.cx = (line.mk [97, 98]).len ∧ E1.cy = sample_second_line.cy - 1 ∧
      E1.dirty = true :=
  ⟨⟨rfl, rfl⟩, C11_delete_char_join sample_second_line ⟨[97, 98]⟩ [] ⟨[99]⟩ [⟨[100]⟩] rfl rfl⟩

theorem drop_pred_cons (l : List Nat) (n : Nat) (h1 : 1 ≤ n) (h2 : n ≤ l.length) :
    ∃ ch, l.drop (n - 1) = ch :: l.drop n := by
  have hlen : (l.drop (n - 1)).length = l.length - (n - 1) := List.length_drop _ _
  cases hd : l.drop (n - 1) with
  | nil =>
    rw [hd] at hlen
    simp at hlen
    omega
  | cons ch t =>
    refine ⟨ch, ?_⟩
    have e : l.drop n = (l.drop (n - 1)).drop 1 := by
      rw [List.drop_drop]
      congr 1
      omega
    rw [e, hd]
    rfl

/-- C12: with a valid cursor, `delete_char()` returns, and it returns the state
unchanged exactly when there is no current line or `cx == 0` and the current
line has no predecessor; otherwise `dirty` is set and either one byte (the one
before the cursor) is removed from the current line, or the line count drops by
one while the bytes of the document stay the same (one line boundary removed). -/
theorem C12_delete_char_noop (E : editor)
    (hv : ∀ b, E.buf = some b → 0 ≤ E.cx ∧ E.cx ≤ b.cur.len) :
    ∃ E1, delete_char E = some E1 ∧
      (E1 = E ↔ delete_is_noop E) ∧
      (¬ delete_is_noop E → E1.dirty = true ∧
        ((0 < E.cx ∧ ∃ b pre ch post, E.buf = some b ∧ b.cur.chars = pre ++ ch :: post ∧
            (pre.length : Int) = E.cx - 1 ∧ E1.buf = some { b with cur := ⟨pre ++ post⟩ } ∧
            E1.cx = E.cx - 1 ∧ E1.cy = E.cy) ∨
          (E.cx = 0 ∧ E1.lines.length + 1 = E.lines.length ∧
            (E1.lines.map line.chars).flatten = (E.lines.map line.chars).flatten))) := by
  cases hb : E.buf with
  | none =>
    refine ⟨E, by simp only [delete_char, hb], ?_, ?_⟩
    · simp [delete_is_noop, hb]
    · intro h
      simp [delete_is_noop, hb] at h
  | some b =>
    obtain ⟨h0, h1⟩ := hv b hb
    by_cases hp : 0 < E.cx
    · have hno : ¬ delete_is_noop E := by
        simp only [delete_is_noop, hb]
        omega
      refine ⟨_, delete_char_inside E b hb hp h1, ?_, ?_⟩
      · refine ⟨fun he => ?_, fun hn => absurd hn hno⟩
        have := congrArg editor.cx he
        simp only at this
        omega
      · intro _
        refine ⟨rfl, Or.inl ⟨hp, b, b.cur.chars.take (E.cx.toNat - 1), ?_⟩⟩
        simp only [line.len] at h1
        obtain ⟨ch, hch⟩ := drop_pred_cons b.cur.chars E.cx.toNat (by omega) (by omega)
        refine ⟨ch, b.cur.chars.drop E.cx.toNat, rfl, ?_, ?_, rfl, rfl, rfl⟩
        · rw [← hch, List.take_append_drop]
        · simp
          omega
    · have hx : E.cx = 0 := by omega
      obtain ⟨before, cur, after⟩ := b
      cases before with
      | nil =>
        refine ⟨E, delete_char_start E cur after hb hx, ?_, ?_⟩
        · simp [delete_is_noop, hb, hx]
        · intro h
          simp [delete_is_noop, hb, hx] at h
      | cons p ps =>
        have hno : ¬ delete_is_noop E := by
          simp [delete_is_noop, hb]
        refine ⟨_, delete_char_join E p ps cur after hb hx, ?_, ?_⟩
        · refine ⟨fun he => ?_, fun hn => absurd hn hno⟩
          have := congrArg editor.cy he
          simp only at this
          omega
        · intro _
          refine ⟨rfl, Or.inr ⟨hx, ?_, ?_⟩⟩
          · simp [editor.lines, hb, buffer.lines]
            omega
          · simp [editor.lines, hb, buffer.lines]

/-- Witness for C12, at the start of the second of three lines. -/
theorem C12_delete_char_noop_witness :
    (∀ b, sample_second_line.buf = some b →
      0 ≤ sample_second_line.cx ∧ sample_second_line.cx ≤ b.cur.len) ∧
    ∃ E1, delete_char sample_second_line = some E1 ∧
      (E1 = sample_second_line ↔ delete_is_noop sample_second_line) ∧
      (¬ delete_is_noop sample_second_line → E1.dirty = true ∧
        ((0 < sample_second_line.cx ∧ ∃ b pre ch post, sample_second_line.buf = some b ∧
            b.cur.chars = pre ++ ch :: post ∧
            (pre.length : Int) = sample_second_line.cx - 1 ∧
            E1.buf = some { b with cur := ⟨pre ++ post⟩ } ∧
            E1.cx = sample_second_line.cx - 1 ∧ E1.cy = sample_second_line.cy) ∨
          (sample_second_line.cx = 0 ∧
            E1.lines.length + 1 = sample_second_line.lines.length ∧
            (E1.lines.map line.chars).flatten
              = (sample_second_line.lines.map line.chars).flatten))) :=
  have hv : ∀ b, sample_second_line.buf = some b →
      0 ≤ sample_second_line.cx ∧ sample_second_line.cx ≤ b.cur.len := by
    intro b hb
    have : b = ⟨[⟨[97, 98]⟩], ⟨[99]⟩, [⟨[100]⟩]⟩ := by
      simp only [sample_second_line, Option.some.injEq] at hb
      exact hb.symm
    subst this
    decide
  ⟨hv, C12_delete_char_noop sample_second_line hv⟩

/-! ## Motions at the document boundaries -/

theorem iterate_step_down_last (n : Nat) (E : editor) (before : List line) (cur : line)
    (hb : E.buf = some ⟨before, cur, []⟩) : Nat.iterate step_down n E = E := by
  induction n with
  | zero => rfl
  | succ k ih =>
    have h1 : step_down E = E := by simp [step_down, hb]
    simp only [Nat.iterate, h1]
    exact ih

theorem iterate_step_up_first (n : Nat) (E : editor) (cur : line) (after : List line)
    (hb : E.buf = some ⟨[], cur, after⟩) : Nat.iterate step_up n E = E := by
  induction n with
  | zero => rfl
  | succ k ih =>
    have h1 : step_up E = E := by simp [step_up, hb]
    simp only [Nat.iterate, h1]
    exact ih

theorem clamp_cx_id (l : line) (E : editor) (h : E.cx ≤ l.len) : clamp_cx l E = E := by
  unfold clamp_cx
  rw [if_neg (by omega)]

/-- With a current line and a valid cursor, a motion that cannot move leaves the
state unchanged: left at `cx = 0`, right at `cx = len`, up and page-up on the
first line, down and page-down on the last line. -/
theorem move_cursor_boundaries (E : editor) (before : List line) (cur : line)
    (after : List line) (hb : E.buf = some ⟨before, cur, after⟩) (h1 : E.cx ≤ cur.len) :
    (E.cx = 0 → move_cursor 104 E = some E) ∧
    (E.cx = cur.len → move_cursor 108 E = some E) ∧
    (before = [] → move_cursor 107 E = some E ∧ move_cursor 75 E = some E) ∧
    (after = [] → move_cursor 106 E = some E ∧ move_cursor 74 E = some E) := by
  refine ⟨?_, ?_, ?_, ?_⟩
  · intro h0
    rw [move_cursor_left, if_neg (by omega)]
  · intro h0
    rw [move_cursor_right E _ hb, if_neg (by simp only; omega)]
  · intro hn
    subst hn
    refine ⟨move_cursor_up_first E cur after hb, ?_⟩
    have hi := iterate_step_up_first (half_page E) E cur after hb
    rw [move_cursor_page_up E ⟨[], cur, after⟩ (by rw [hi]; exact hb), hi,
      clamp_cx_id _ _ h1]
  · intro hn
    subst hn
    refine ⟨move_cursor_down_last E before cur hb, ?_⟩
    have hi := iterate_step_down_last (half_page E) E before cur hb
    rw [move_cursor_page_down E ⟨before, cur, []⟩ (by rw [hi]; exact hb), hi,
      clamp_cx_id _ _ h1]

/-- C13 (the code at the failing input): on the empty document produced by
`init_editor`, the motions left, right, up, down, line-start and line-end return
the state unchanged, but page-down (`'J'`, also as the sequence ESC `[6~`) and
page-up (`'K'`, ESC `[5~`) read `E.current->len` with `E.current` null. -/
theorem C13_page_motion_on_empty_document :
    (init_editor 24 80).buf = none ∧
    move_cursor 104 (init_editor 24 80) = some (init_editor 24 80) ∧
    move_cursor 108 (init_editor 24 80) = some (init_editor 24 80) ∧
    move_cursor 107 (init_editor 24 80) = some (init_editor 24 80) ∧
    move_cursor 106 (init_editor 24 80) = some (init_editor 24 80) ∧
    move_cursor 48 (init_editor 24 80) = some (init_editor 24 80) ∧
    move_cursor 36 (init_editor 24 80) = some (init_editor 24 80) ∧
    move_cursor 74 (init_editor 24 80) = none ∧
    move_cursor 75 (init_editor 24 80) = none ∧
    process_keypress (init_editor 24 80) [some 74] = outcome.undefined ∧
    process_keypress (init_editor 24 80) [some 27, some 91, some 54, some 126]
      = outcome.undefined ∧
    process_keypress (init_editor 24 80) [some 27, some 91, some 53, some 126]
      = outcome.undefined := by
  decide

/-! ## Key decoding -/

/-- C14 (counterexample): `read_key` maps ESC `[A` to `'k'`, which `move_cursor`
executes as up (the previous line becomes current), not to the left token `'h'`,
and ESC `[D` to `'h'`, which `move_cursor` executes as left (`cx` decreases), not
to the up token. -/
theorem C14_arrow_A_is_up_D_is_left :
    read_key [some 27, some 91, some 65] = some (107, []) ∧
    read_key [some 27, some 91, some 68] = some (104, []) ∧
    move_cursor 107 sample_second_line_end = some { sample_second_line_end with
      buf := some ⟨[], ⟨[97, 98]⟩, [⟨[99]⟩, ⟨[100]⟩]⟩, cy := 0 } ∧
    move_cursor 104 sample_second_line_end = some { sample_second_line_end with cx := 0 } := by
  decide

/-- C14 (amended): for an input that delivers ESC `[` `X`, `read_key` maps
`X = 'A'`, `'B'`, `'C'`, `'D'` to `'k'`, `'j'`, `'l'`, `'h'`, the tokens that
`move_cursor` executes as up, down, right and left. -/
theorem C14_arrow_keys (rest : List (Option Nat)) (E : editor) :
    read_key (some 27 :: some 91 :: some 65 :: rest) = some (107, rest) ∧
    read_key (some 27 :: some 91 :: some 66 :: rest) = some (106, rest) ∧
    read_key (some 27 :: some 91 :: some 67 :: rest) = some (108, rest) ∧
    read_key (some 27 :: some 91 :: some 68 :: rest) = some (104, rest) ∧
    move_cursor 107 E =
      (match E.buf with
        | some ⟨p :: _, _, _⟩ => some (clamp_cx p (step_up E))
        | _ => some E) ∧
    move_cursor 106 E =
      (match E.buf with
        | some ⟨_, _, n :: _⟩ => some (clamp_cx n (step_down E))
        | _ => some E) ∧
    move_cursor 108 E =
      (match E.buf with
        | some b => some (if E.cx < b.cur.len then { E with cx := E.cx + 1 } else E)
        | none => some E) ∧
    move_cursor 104 E = some (if E.cx > 0 then { E with cx := E.cx - 1 } else E) :=
  ⟨rfl, rfl, rfl, rfl, rfl, rfl, rfl, rfl⟩

theorem read_key_escape_unrecognized (inp : List (Option Nat))
    (h : recognized_escape inp = false) :
    ∃ k, k ≤ 3 ∧ read_key (some 27 :: inp) = some (27, inp.drop k) := by
  match inp, h with
  | [], _ => exact ⟨0, by omega, rfl⟩
  | none :: rest, _ => exact ⟨1, by omega, rfl⟩
  | [some s0], _ => exact ⟨2, by omega, rfl⟩
  | some s0 :: none :: rest, _ => exact ⟨2, by omega, rfl⟩
  | some s0 :: some s1 :: rest, h =>
    by_cases h0 : s0 = 91
    · subst h0
      simp only [recognized_escape, Bool.or_eq_false_iff, beq_eq_false_iff_ne, ne_eq,
        Bool.and_eq_false_imp, Bool.or_eq_true, beq_iff_eq] at h
      obtain ⟨⟨⟨⟨⟨⟨hA, hB⟩, hC⟩, hD⟩, hH⟩, hF⟩, h56⟩ := h
      by_cases h5 : s1 = 53
      · subst h5
        match rest, h56 with
        | [], _ => exact ⟨3, by omega, rfl⟩
        | none :: r, _ => exact ⟨3, by omega, rfl⟩
        | some s2 :: r, h56 =>
          have h2 : s2 ≠ 126 := by
            intro e
            subst e
            simp at h56
          refine ⟨3, by omega, ?_⟩
          simp [read_key, read_byte, h2]
      · by_cases h6 : s1 = 54
        · subst h6
          match rest, h56 with
          | [], _ => exact ⟨3, by omega, rfl⟩
          | none :: r, _ => exact ⟨3, by omega, rfl⟩
          | some s2 :: r, h56 =>
            have h2 : s2 ≠ 126 := by
              intro e
              subst e
              simp at h56
            refine ⟨3, by omega, ?_⟩
            simp [read_key, read_byte, h2]
        · refine ⟨2, by omega, ?_⟩
          simp [read_key, read_byte, hA, hB, hC, hD, hH, hF, h5, h6]
    · refine ⟨2, by omega, ?_⟩
      simp [read_key, read_byte, h0]

theorem process_keypress_escape (E : editor) (inp rest : List (Option Nat))
    (h : read_key inp = some (27, rest)) :
    process_keypress E inp = outcome.running E rest none := by
  simp [process_keypress, h, iscntrl]

/-- C15: when the reads after an ESC byte do not deliver one of the eight
recognised sequences (short reads included), `read_key` returns the ESC value
after at most three further reads, and `process_keypress` on that event returns
the editor state unchanged and writes no file. -/
theorem C15_unrecognized_escape (E : editor) (inp : List (Option Nat))
    (h : recognized_escape inp = false) :
    ∃ k, k ≤ 3 ∧ read_key (some 27 :: inp) = some (27, inp.drop k) ∧
      process_keypress E (some 27 :: inp) = outcome.running E (inp.drop k) none := by
  obtain ⟨k, hk, hr⟩ := read_key_escape_unrecognized inp h
  exact ⟨k, hk, hr, process_keypress_escape E _ _ hr⟩

/-- Witness for C15: ESC `[5` followed by a read that times out, then `'x'`. -/
theorem C15_unrecognized_escape_witness :
    recognized_escape [some 91, some 53, none, some 120] = false ∧
    ∃ k, k ≤ 3 ∧
      read_key (some 27 :: [some 91, some 53, none, some 120])
        = some (27, [some 91, some 53, none, some 120].drop k) ∧
      process_keypress sample_two_lines (some 27 :: [some 91, some 53, none, some 120])
        = outcome.running sample_two_lines ([some 91, some 53, none, some 120].drop k) none :=
  ⟨by decide, C15_unrecognized_escape sample_two_lines [some 91, some 53, none, some 120]
    (by decide)⟩

/-! ## Row counter -/

theorem cy_ok_of_eq (E E1 : editor) (hc : E1.cy = E.cy) (hb : E1.buf = E.buf)
    (h : cy_ok E) : cy_ok E1 := by
  unfold cy_ok editor.links at *
  rw [hc, hb]
  exact h

theorem clamp_cx_cy (l : line) (E : editor) : (clamp_cx l E).cy = E.cy := by
  unfold clamp_cx
  split <;> rfl

theorem clamp_cx_cy_ok (l : line) (E : editor) (h : cy_ok E) : cy_ok (clamp_cx l E) :=
  cy_ok_of_eq E _ (clamp_cx_cy l E) (clamp_cx_buf l E) h

theorem step_down_cy_ok (E : editor) (h : cy_ok E) : cy_ok (step_down E) := by
  unfold step_down
  split
  · next before cur n after hb =>
    simp only [cy_ok, editor.links, hb] at h ⊢
    simp only [List.length_cons, Nat.cast_add, Nat.cast_one, h]
  · exact h

theorem step_up_cy_ok (E : editor) (h : cy_ok E) : cy_ok (step_up E) := by
  unfold step_up
  split
  · next p before cur after hb =>
    simp only [cy_ok, editor.links, hb] at h ⊢
    simp only [List.length_cons, Nat.cast_add, Nat.cast_one] at h
    omega
  · exact h

theorem iterate_step_down_cy_ok (n : Nat) (E : editor) (h : cy_ok E) :
    cy_ok (Nat.iterate step_down n E) := by
  induction n generalizing E with
  | zero => exact h
  | succ k ih => exact ih (step_down E) (step_down_cy_ok E h)

theorem iterate_step_up_cy_ok (n : Nat) (E : editor) (h : cy_ok E) :
    cy_ok (Nat.iterate step_up n E) := by
  induction n generalizing E with
  | zero => exact h
  | succ k ih => exact ih (step_up E) (step_up_cy_ok E h)

theorem insert_char_cy_ok (c : Nat) (E E1 : editor) (h : cy_ok E)
    (hE : insert_char c E = some E1) : cy_ok E1 := by
  unfold insert_char at hE
  cases hb : E.buf with
  | none =>
    simp only [hb, Option.some.injEq] at hE
    subst hE
    simp only [cy_ok, editor.links, hb] at h ⊢
    simp [h]
  | some b =>
    simp only [hb] at hE
    split_ifs at hE
    simp only [Option.some.injEq] at hE
    subst hE
    simp only [cy_ok, editor.links, hb] at h ⊢
    exact h

theorem delete_char_cy_ok (E E1 : editor) (h : cy_ok E) (hE : delete_char E = some E1) :
    cy_ok E1 := by
  unfold delete_char at hE
  cases hb : E.buf with
  | none =>
    simp only [hb, Option.some.injEq] at hE
    subst hE
    exact h
  | some b =>
    simp only [hb] at hE
    split_ifs at hE
    · simp only [Option.some.injEq] at hE
      subst hE
      exact h
    · simp only [Option.some.injEq] at hE
      subst hE
      simp only [cy_ok, editor.links, hb] at h ⊢
      exact h
    · cases hbe : b.before with
      | nil => simp [hbe] at hE
      | cons p ps =>
        simp only [hbe, Option.some.injEq] at hE
        subst hE
        simp only [cy_ok, editor.links, hb, hbe, List.length_cons, Nat.cast_add,
          Nat.cast_one] at h ⊢
        omega

theorem split_line_cy_ok (E E1 : editor) (h : cy_ok E) (hE : split_line E = some E1) :
    cy_ok E1 := by
  unfold split_line at hE
  cases hb : E.buf with
  | none => simp [hb] at hE
  | some b =>
    simp only [hb] at hE
    split_ifs at hE
    simp only [Option.some.injEq] at hE
    subst hE
    simp only [cy_ok, editor.links, hb, List.length_cons, Nat.cast_add, Nat.cast_one] at h ⊢
    omega

theorem move_cursor_cy_ok (key : Nat) (E E1 : editor) (h : cy_ok E)
    (hE : move_cursor key E = some E1) : cy_ok E1 := by
  by_cases k1 : key = 104
  · subst k1
    rw [move_cursor_left, Option.some.injEq] at hE
    subst hE
    split_ifs
    · exact cy_ok_of_eq E _ rfl rfl h
    · exact h
  by_cases k2 : key = 108
  · subst k2
    cases hb : E.buf with
    | none =>
      simp only [move_cursor, hb, Option.some.injEq] at hE
      simp at hE
      subst hE
      exact h
    | some b =>
      rw [move_cursor_right E b hb, Option.some.injEq] at hE
      subst hE
      split_ifs
      · exact cy_ok_of_eq E _ rfl rfl h
      · exact h
  by_cases k3 : key = 107
  · subst k3
    cases hb : E.buf with
    | none =>
      simp [move_cursor, hb] at hE
      subst hE
      exact h
    | some b =>
      obtain ⟨before, cur, after⟩ := b
      cases before with
      | nil =>
        rw [move_cursor_up_first E cur after hb, Option.some.injEq] at hE
        subst hE
        exact h
      | cons p ps =>
        rw [move_cursor_up E p ps cur after hb, Option.some.injEq] at hE
        subst hE
        exact clamp_cx_cy_ok p _ (step_up_cy_ok E h)
  by_cases k4 : key = 106
  · subst k4
    cases hb : E.buf with
    | none =>
      simp [move_cursor, hb] at hE
      subst hE
      exact h
    | some b =>
      obtain ⟨before, cur, after⟩ := b
      cases after with
      | nil =>
        rw [move_cursor_down_last E before cur hb, Option.some.injEq] at hE
        subst hE
        exact h
      | cons n ns =>
        rw [move_cursor_down E before cur n ns hb, Option.some.injEq] at hE
        subst hE
        exact clamp_cx_cy_ok n _ (step_down_cy_ok E h)
  by_cases k5 : key = 48
  · subst k5
    rw [move_cursor_home, Option.some.injEq] at hE
    subst hE
    exact cy_ok_of_eq E _ rfl rfl h
  by_cases k6 : key = 36
  · subst k6
    cases hb : E.buf with
    | none =>
      simp [move_cursor, hb] at hE
      subst hE
      exact h
    | some b =>
      rw [move_cursor_end E b hb, Option.some.injEq] at hE
      subst hE
      exact cy_ok_of_eq E _ rfl rfl h
  by_cases k7 : key = 74
  · subst k7
    cases hI : (Nat.iterate step_down (half_page E) E).buf with
    | none => simp [move_cursor, hI] at hE
    | some b1 =>
      rw [move_cursor_page_down E b1 hI, Option.some.injEq] at hE
      subst hE
      exact clamp_cx_cy_ok _ _ (iterate_step_down_cy_ok _ E h)
  by_cases k8 : key = 75
  · subst k8
    cases hI : (Nat.iterate step_up (half_page E) E).buf with
    | none => simp [move_cursor, hI] at hE
    | some b1 =>
      rw [move_cursor_page_up E b1 hI, Option.some.injEq] at hE
      subst hE
      exact clamp_cx_cy_ok _ _ (iterate_step_up_cy_ok _ E h)
  rw [move_cursor_other key E ⟨k1, k2, k3, k4, k5, k6, k7, k8⟩, Option.some.injEq] at hE
  subst hE
  exact h

theorem rewind_before (b : buffer) : b.rewind.before = [] := by
  unfold buffer.rewind
  split
  · next h => simpa using h
  · rfl

theorem open_file_cy_ok (file : Option (List Nat)) (name : List Nat) (E : editor)
    (h : cy_ok E) : cy_ok (open_file file name E) := by
  cases file with
  | none => exact h
  | some content =>
    simp only [open_file, cy_ok, editor.links]
    generalize ((getlines content).foldl (fun E0 l => insert_line (strip_eol l) E0)
      { E with buf := none, cy := 0 }).buf = ob
    cases ob with
    | none => rfl
    | some b => simp [rewind_before]

theorem scroll_frame (E E1 : editor) (h : scroll E = some E1) :
    E1 = { E with rowoff := E1.rowoff, coloff := E1.coloff } := by
  unfold scroll at h
  simp only [scroll_vertical_eq] at h
  cases hb : E.buf with
  | none =>
    simp only [hb, Option.some.injEq] at h
    subst h
    simp [hb]
  | some b =>
    simp only [hb] at h
    cases hrx : row_cx_to_rx b.cur.chars E.cx with
    | none => simp [hrx] at h
    | some rx =>
      simp only [hrx, Option.some.injEq, scroll_horizontal_eq] at h
      subst h
      simp [hb]

theorem save_file_frame (E : editor) (inp : List (Option Nat)) :
    (save_file E inp).1.cy = E.cy ∧ (save_file E inp).1.buf = E.buf ∧
    (save_file E inp).1.cx = E.cx := by
  unfold save_file
  cases E.filename with
  | some f => exact ⟨rfl, rfl, rfl⟩
  | none =>
    simp only
    split
    · exact ⟨rfl, rfl, rfl⟩
    · split_ifs
      · exact ⟨rfl, rfl, rfl⟩
      · exact ⟨rfl, rfl, rfl⟩

theorem outcome_of_running (r : Option editor) (inp inp1 : List (Option Nat)) (E1 : editor)
    (w : Option (List Nat × List Nat)) (h : outcome.of r inp = outcome.running E1 inp1 w) :
    r = some E1 := by
  cases r with
  | none => simp [outcome.of] at h
  | some E =>
    simp only [outcome.of, outcome.running.injEq] at h
    rw [h.1]

/-- What a call of `process_keypress` that returns has done to the state. -/
theorem process_keypress_cases (E E1 : editor) (inp inp1 : List (Option Nat))
    (w : Option (List Nat × List Nat))
    (h : process_keypress E inp = outcome.running E1 inp1 w) :
    E1 = E ∨ (∃ i, E1 = (save_file E i).1) ∨ split_line E = some E1 ∨
    delete_char E = some E1 ∨ (∃ k, move_cursor k E = some E1) ∨
    (∃ c, insert_char c E = some E1) := by
  unfold process_keypress at h
  cases hr : read_key inp with
  | none => simp [hr] at h
  | some r =>
    obtain ⟨c, inp2⟩ := r
    simp only [hr] at h
    split_ifs at h with h17 hd h19 h13 h8 hm hc
    · cases hr2 : read_key inp2 with
      | none => simp [hr2] at h
      | some r2 =>
        simp only [hr2] at h
        split_ifs at h
        have h3 := outcome_of_running _ _ _ _ _ h
        cases hdr : draw_rows E with
        | none => simp [hdr] at h3
        | some out =>
          simp only [hdr, Option.map_some', Option.some.injEq] at h3
          exact Or.inl h3.symm
    · refine Or.inr (Or.inl ⟨inp2, ?_⟩)
      simp only [outcome.running.injEq] at h
      exact h.1.symm
    · exact Or.inr (Or.inr (Or.inl (outcome_of_running _ _ _ _ _ h)))
    · exact Or.inr (Or.inr (Or.inr (Or.inl (outcome_of_running _ _ _ _ _ h))))
    · exact Or.inr (Or.inr (Or.inr (Or.inr (Or.inl ⟨c, outcome_of_running _ _ _ _ _ h⟩))))
    · simp only [outcome.running.injEq] at h
      exact Or.inl h.1.symm
    · exact Or.inr (Or.inr (Or.inr (Or.inr (Or.inr ⟨c, outcome_of_running _ _ _ _ _ h⟩))))

theorem process_keypress_cy_ok (E E1 : editor) (inp inp1 : List (Option Nat))
    (w : Option (List Nat × List Nat)) (hc : cy_ok E)
    (h : process_keypress E inp = outcome.running E1 inp1 w) : cy_ok E1 := by
  rcases process_keypress_cases E E1 inp inp1 w h with
    h1 | ⟨i, h1⟩ | h1 | h1 | ⟨k, h1⟩ | ⟨c, h1⟩
  · rw [h1]
    exact hc
  · rw [h1]
    exact cy_ok_of_eq E _ (save_file_frame E i).1 (save_file_frame E i).2.1 hc
  · exact split_line_cy_ok E E1 hc h1
  · exact delete_char_cy_ok E E1 hc h1
  · exact move_cursor_cy_ok k E E1 hc h1
  · exact insert_char_cy_ok c E E1 hc h1

theorem reachable_cy_ok (E : editor) (h : reachable E) : cy_ok E := by
  induction h with
  | init rows cols => rfl
  | opened rows cols file name => exact open_file_cy_ok file name _ rfl
  | scrolled E E1 _ hs ih =>
    have hf := scroll_frame E E1 hs
    exact cy_ok_of_eq E E1 (by rw [hf]) (by rw [hf]) ih
  | key E E1 inp inp1 w _ hk ih => exact process_keypress_cy_ok E E1 inp inp1 w ih hk

theorem run_all_cy_ok (cs : List command) (E E1 : editor) (h : cy_ok E)
    (hr : run_all cs E = some E1) : cy_ok E1 := by
  induction cs generalizing E with
  | nil =>
    simp only [run_all, Option.some.injEq] at hr
    rw [← hr]
    exact h
  | cons c cs ih =>
    simp only [run_all] at hr
    cases hc : c.run E with
    | none => simp [hc] at hr
    | some E2 =>
      simp only [hc, Option.some_bind] at hr
      refine ih E2 ?_ hr
      cases c with
      | move key => exact move_cursor_cy_ok key E E2 h hc
      | insert ch => exact insert_char_cy_ok ch E E2 h hc
      | delete => exact delete_char_cy_ok E E2 h hc
      | split => exact split_line_cy_ok E E2 h hc

/-- C16: `cy` is the number of predecessor links of the current line in the
state of `init_editor` and after `open_file`; the equality is preserved by
`insert_char`, `delete_char`, `split_line` and `move_cursor` (whatever the key)
whenever they return, which they do on every state with a valid cursor, also in
sequence; and it holds in every state `main` reaches. -/
theorem C16_row_counter (rows cols : Int) :
    cy_ok (init_editor rows cols) ∧
    (∀ file name E, cy_ok E → cy_ok (open_file file name E)) ∧
    (∀ E, cy_ok E →
      (∀ c E1, insert_char c E = some E1 → cy_ok E1) ∧
      (∀ E1, delete_char E = some E1 → cy_ok E1) ∧
      (∀ E1, split_line E = some E1 → cy_ok E1) ∧
      (∀ key E1, move_cursor key E = some E1 → cy_ok E1) ∧
      (cursor_ok E → ∀ cs : List command, ∃ E1, run_all cs E = some E1 ∧ cy_ok E1)) ∧
    (∀ E, reachable E → cy_ok E) := by
  refine ⟨rfl, fun file name E h => open_file_cy_ok file name E h, ?_, reachable_cy_ok⟩
  intro E h
  refine ⟨fun c E1 => insert_char_cy_ok c E E1 h, fun E1 => delete_char_cy_ok E E1 h,
    fun E1 => split_line_cy_ok E E1 h, fun key E1 => move_cursor_cy_ok key E E1 h, ?_⟩
  intro hok cs
  obtain ⟨E1, h1, _⟩ := run_all_ok cs E hok
  exact ⟨E1, h1, run_all_cy_ok cs E E1 h h1⟩

/-- Witness for C16: the row counter after a backspace at the start of the second
of three lines, and after any sequence of commands from there. -/
theorem C16_row_counter_witness :
    (cy_ok sample_second_line ∧ cursor_ok sample_second_line ∧
      delete_char sample_second_line = some { sample_second_line with
        buf := some ⟨[], ⟨[97, 98, 99]⟩, [⟨[100]⟩]⟩, cx := 2, cy := 0, dirty := true }) ∧
    cy_ok { sample_second_line with
      buf := some ⟨[], ⟨[97, 98, 99]⟩, [⟨[100]⟩]⟩, cx := 2, cy := 0, dirty := true } ∧
    ∀ cs : List command, ∃ E1, run_all cs sample_second_line = some E1 ∧ cy_ok E1 :=
  ⟨⟨by decide, by decide, by decide⟩,
    ((C16_row_counter 24 80).2.2.1 sample_second_line (by decide)).2.1 _ (by decide),
    ((C16_row_counter 24 80).2.2.1 sample_second_line (by decide)).2.2.2.2 (by decide)⟩

/-! ## Page motions -/

theorem lines_length (E : editor) (b : buffer) (hb : E.buf = some b) :
    E.lines.length = E.links + 1 + b.after.length := by
  simp [editor.lines, editor.links, hb, buffer.lines]
  omega

theorem current_at_links (E : editor) (b : buffer) (hb : E.buf = some b) :
    E.lines[E.links]? = some b.cur := by
  simp only [editor.lines, editor.links, hb, buffer.lines]
  rw [List.getElem?_append_right (by simp)]
  simp

theorem step_down_pos (E : editor) (hb : E.buf ≠ none) :
    (step_down E).links = min (E.links + 1) (E.lines.length - 1) ∧
    (step_down E).cy = E.cy + (((step_down E).links : Int) - E.links) := by
  cases hE : E.buf with
  | none => exact absurd hE hb
  | some b =>
    obtain ⟨before, cur, after⟩ := b
    have hl := lines_length E _ hE
    cases after with
    | nil =>
      have h1 : step_down E = E := by simp [step_down, hE]
      rw [h1]
      simp only [List.length_nil] at hl
      refine ⟨by omega, by omega⟩
    | cons n ns =>
      have h1 : (step_down E).links = E.links + 1 := by
        simp [step_down, hE, editor.links]
      have h2 : (step_down E).cy = E.cy + 1 := by
        simp [step_down, hE]
      simp only [List.length_cons] at hl
      rw [h1, h2]
      refine ⟨by omega, by push_cast; omega⟩

theorem step_up_pos (E : editor) :
    (step_up E).links = E.links - 1 ∧
    (step_up E).cy = E.cy + (((step_up E).links : Int) - E.links) := by
  cases hE : E.buf with
  | none =>
    have h1 : step_up E = E := by simp [step_up, hE]
    rw [h1]
    simp [editor.links, hE]
  | some b =>
    obtain ⟨before, cur, after⟩ := b
    cases before with
    | nil =>
      have h1 : step_up E = E := by simp [step_up, hE]
      rw [h1]
      simp [editor.links, hE]
    | cons p ps =>
      have h0 : E.links = ps.length + 1 := by simp [editor.links, hE]
      have h1 : (step_up E).links = ps.length := by
        simp [step_up, hE, editor.links]
      have h2 : (step_up E).cy = E.cy - 1 := by
        simp [step_up, hE]
      rw [h1, h2, h0]
      refine ⟨by omega, by push_cast; omega⟩

theorem iterate_step_down_pos (k : Nat) (E : editor) (hb : E.buf ≠ none) :
    (Nat.iterate step_down k E).links = min (E.links + k) (E.lines.length - 1) ∧
    (Nat.iterate step_down k E).cy
      = E.cy + (((Nat.iterate step_down k E).links : Int) - E.links) := by
  induction k generalizing E with
  | zero =>
    cases hE : E.buf with
    | none => exact absurd hE hb
    | some b =>
      have hl := lines_length E b hE
      simp only [Nat.iterate]
      refine ⟨by omega, by omega⟩
  | succ k ih =>
    obtain ⟨h1, h2⟩ := ih (step_down E) (step_down_buf E hb)
    obtain ⟨s1, s2⟩ := step_down_pos E hb
    have hlines : (step_down E).lines = E.lines := (step_down_unedited E).1
    simp only [Nat.iterate]
    rw [hlines] at h1
    refine ⟨by omega, by omega⟩

theorem iterate_step_up_pos (k : Nat) (E : editor) :
    (Nat.iterate step_up k E).links = E.links - k ∧
    (Nat.iterate step_up k E).cy
      = E.cy + (((Nat.iterate step_up k E).links : Int) - E.links) := by
  induction k generalizing E with
  | zero =>
    simp only [Nat.iterate]
    refine ⟨by omega, by omega⟩
  | succ k ih =>
    obtain ⟨h1, h2⟩ := ih (step_up E)
    obtain ⟨s1, s2⟩ := step_up_pos E
    simp only [Nat.iterate]
    refine ⟨by omega, by omega⟩

theorem half_page_eq (E : editor) (h : 0 ≤ E.rows) : (half_page E : Int) = E.rows / 2 := by
  unfold half_page
  rw [Int.tdiv_eq_ediv h (by norm_num)]
  omega

theorem clamp_cx_min (l : line) (E : editor) : (clamp_cx l E).cx = min E.cx l.len := by
  unfold clamp_cx
  split_ifs with h
  · simp only
    omega
  · omega

theorem links_of_buf (E E1 : editor) (h : E1.buf = E.buf) : E1.links = E.links := by
  unfold editor.links
  rw [h]

/-- C17: with a current line at position `i` of `n` lines and `rows ≥ 0`,
page-down makes the line at position `min (i + rows / 2) (n - 1)` current and
page-up the line at position `max (i - rows / 2) 0`; `cy` changes by the number
of lines moved, `cx` becomes the minimum of `cx` and the length of the new
current line, and the lines are unchanged. -/
theorem C17_page_motion (E : editor) (b : buffer) (hb : E.buf = some b) (hr : 0 ≤ E.rows) :
    (∃ E1 l, move_cursor 74 E = some E1 ∧ E1.lines = E.lines ∧
      (E1.links : Int) = min ((E.links : Int) + E.rows / 2) ((E.lines.length : Int) - 1) ∧
      E1.current = some l ∧ E.lines[E1.links]? = some l ∧
      E1.cy = E.cy + ((E1.links : Int) - E.links) ∧
      E1.cx = min E.cx l.len) ∧
    (∃ E1 l, move_cursor 75 E = some E1 ∧ E1.lines = E.lines ∧
      (E1.links : Int) = max ((E.links : Int) - E.rows / 2) 0 ∧
      E1.current = some l ∧ E.lines[E1.links]? = some l ∧
      E1.cy = E.cy + ((E1.links : Int) - E.links) ∧
      E1.cx = min E.cx l.len) := by
  have hne : E.buf ≠ none := by simp [hb]
  have hk := half_page_eq E hr
  have hlen := lines_length E b hb
  constructor
  · obtain ⟨hcx, hbuf⟩ := iterate_step_down (half_page E) E hne
    obtain ⟨hpos, hcy⟩ := iterate_step_down_pos (half_page E) E hne
    have hu := iterate_step_down_unedited (half_page E) E
    cases hI : (Nat.iterate step_down (half_page E) E).buf with
    | none => exact absurd hI hbuf
    | some b1 =>
      have hl1 := links_of_buf _ _ (clamp_cx_buf b1.cur (Nat.iterate step_down (half_page E) E))
      refine ⟨_, b1.cur, move_cursor_page_down E b1 hI, ?_, ?_, ?_, ?_, ?_, ?_⟩
      · exact (clamp_cx_unedited _ _).1.trans hu.1
      · rw [hl1]
        omega
      · simp [editor.current, clamp_cx_buf, hI]
      · rw [hl1, ← hu.1]
        exact current_at_links _ b1 hI
      · rw [hl1, clamp_cx_cy]
        exact hcy
      · rw [clamp_cx_min, hcx]
  · obtain ⟨hcx, hbuf⟩ := iterate_step_up (half_page E) E hne
    obtain ⟨hpos, hcy⟩ := iterate_step_up_pos (half_page E) E
    have hu := iterate_step_up_unedited (half_page E) E
    cases hI : (Nat.iterate step_up (half_page E) E).buf with
    | none => exact absurd hI hbuf
    | some b1 =>
      have hl1 := links_of_buf _ _ (clamp_cx_buf b1.cur (Nat.iterate step_up (half_page E) E))
      refine ⟨_, b1.cur, move_cursor_page_up E b1 hI, ?_, ?_, ?_, ?_, ?_, ?_⟩
      · exact (clamp_cx_unedited _ _).1.trans hu.1
      · rw [hl1]
        omega
      · simp [editor.current, clamp_cx_buf, hI]
      · rw [hl1, ← hu.1]
        exact current_at_links _ b1 hI
      · rw [hl1, clamp_cx_cy]
        exact hcy
      · rw [clamp_cx_min, hcx]

/-- Witness for C17: page-down and page-up from the first of four lines with
four body rows; page-down passes over an empty line and ends on `"xyz"` with
`cx = 3`. -/
theorem C17_page_motion_witness :
    (sample_page.buf
        = some ⟨[], ⟨[97, 98, 99, 100]⟩, [⟨[]⟩, ⟨[120, 121, 122]⟩, ⟨[113]⟩]⟩ ∧
      0 ≤ sample_page.rows) ∧
    move_cursor 74 sample_page = some { sample_page with
      buf := some ⟨[⟨[]⟩, ⟨[97, 98, 99, 100]⟩], ⟨[120, 121, 122]⟩, [⟨[113]⟩]⟩,
      cx := 3, cy := 2 } ∧
    (∃ E1 l, move_cursor 74 sample_page = some E1 ∧ E1.lines = sample_page.lines ∧
      (E1.links : Int) = min ((sample_page.links : Int) + sample_page.rows / 2)
        ((sample_page.lines.length : Int) - 1) ∧
      E1.current = some l ∧ sample_page.lines[E1.links]? = some l ∧
      E1.cy = sample_page.cy + ((E1.links : Int) - sample_page.links) ∧
      E1.cx = min sample_page.cx l.len) ∧
    (∃ E1 l, move_cursor 75 sample_page = some E1 ∧ E1.lines = sample_page.lines ∧
      (E1.links : Int) = max ((sample_page.links : Int) - sample_page.rows / 2) 0 ∧
      E1.current = some l ∧ sample_page.lines[E1.links]? = some l ∧
      E1.cy = sample_page.cy + ((E1.links : Int) - sample_page.links) ∧
      E1.cx = min sample_page.cx l.len) :=
  ⟨⟨rfl, by decide⟩, by decide, C17_page_motion sample_page _ rfl (by decide)⟩

/-! ## Status line -/

/-- Without scrolling the counter `filerow` that `draw_rows` prints in the status
line is 0, whatever the document. -/
theorem skip_rows_unscrolled (rowoff : Int) (h : rowoff ≤ 0) (ls : List line) :
    (skip_rows rowoff ls 0).2 = 0 := by
  cases ls with
  | nil => rfl
  | cons l rest =>
    have hlt : ¬ (0 : Int) < rowoff := by omega
    simp only [skip_rows, hlt, if_false]

/-- C18 (the code at the failing input): for the two-line document `"a"`, `"b"`
on two rows with `rowoff = 0`, the counter printed is 0 and the status line reads
`"[New File] - 0 lines "`, while the document has two lines, of which the frame
body shows one. -/
theorem C18_status_prints_zero_lines :
    sample_two_rows.lines.length = 2 ∧
    draw_body sample_two_rows
      = some [[97] ++ ERASE_EOL ++ CRLF, TILDE ++ ERASE_EOL ++ CRLF] ∧
    (skip_rows sample_two_rows.rowoff sample_two_rows.lines 0).2 = 0 ∧
    fmt_d 0 = [48] ∧
    status_text sample_two_rows 0
      = [91, 78, 101, 119, 32, 70, 105, 108, 101, 93, 32, 45, 32, 48, 32, 108, 105, 110,
          101, 115, 32] ∧
    draw_rows sample_two_rows
      = some ([27, 91, 63, 50, 53, 108] ++ [27, 91, 72]
          ++ ([97] ++ ERASE_EOL ++ CRLF) ++ (TILDE ++ ERASE_EOL ++ CRLF)
          ++ [27, 91, 55, 109]
          ++ [91, 78, 101, 119, 32, 70, 105, 108, 101, 93, 32, 45, 32, 48, 32, 108, 105, 110,
              101, 115, 32]
          ++ [27, 91, 109] ++ ERASE_EOL ++ [27, 91, 49, 59, 49, 72]
          ++ [27, 91, 63, 50, 53, 104]) := by
  decide

/-! ## Enter on the empty document -/

/-- C19 (the code at the failing input): the state `init_editor` produces is a
state of `main` without a current line (so is the state after `open_file` on an
empty file); there `split_line()` reads through the null `E.current`, and it is
what `process_keypress` runs on the carriage-return key. -/
theorem C19_enter_on_empty_document :
    reachable (init_editor 24 80) ∧
    (init_editor 24 80).buf = none ∧
    reachable (open_file (some []) [102] (init_editor 24 80)) ∧
    (open_file (some []) [102] (init_editor 24 80)).buf = none ∧
    split_line (init_editor 24 80) = none ∧
    process_keypress (init_editor 24 80) [some 13] = outcome.undefined ∧
    process_keypress (open_file (some []) [102] (init_editor 24 80)) [some 13]
      = outcome.undefined :=
  ⟨reachable.init 24 80, by decide, reachable.opened 24 80 (some []) [102], by decide,
    by decide, by decide, by decide⟩

/-! ## Idempotence of `scroll` -/

theorem scroll_empty (E : editor) (hb : E.buf = none) :
    scroll E = some { E with
      rowoff :=
        if E.cy ≥ (if E.cy < E.rowoff then E.cy else E.rowoff) + E.rows then E.cy - E.rows + 1
        else (if E.cy < E.rowoff then E.cy else E.rowoff) } := by
  unfold scroll
  simp only [scroll_vertical_eq, hb]

theorem scroll_in_window (E : editor) (h : in_window E) : scroll E = some E := by
  obtain ⟨h1, h2, h3⟩ := h
  have e1 : ¬ E.cy < E.rowoff := by omega
  have e2 : ¬ E.cy ≥ E.rowoff + E.rows := by omega
  cases hb : E.buf with
  | none =>
    rw [scroll_empty E hb]
    simp only [e1, e2, if_false]
  | some b =>
    simp only [column_in_window, hb] at h3
    cases hrx : row_cx_to_rx b.cur.chars E.cx with
    | none => simp [hrx] at h3
    | some rx =>
      simp only [hrx] at h3
      have e3 : ¬ rx < E.coloff := by omega
      have e4 : ¬ rx ≥ E.coloff + E.cols := by omega
      rw [scroll_eq E b rx hb hrx]
      simp only [e1, e2, e3, e4, if_false]

theorem scroll_result_in_window (E E1 : editor) (hr : 1 ≤ E.rows) (hc : 1 ≤ E.cols)
    (h : scroll E = some E1) : in_window E1 := by
  cases hb : E.buf with
  | none =>
    rw [scroll_empty E hb, Option.some.injEq] at h
    subst h
    simp only [in_window, column_in_window, hb, and_true]
    constructor <;> split_ifs <;> omega
  | some b =>
    cases hrx : row_cx_to_rx b.cur.chars E.cx with
    | none =>
      rw [scroll_none E b hb hrx] at h
      simp at h
    | some rx =>
      rw [scroll_eq E b rx hb hrx, Option.some.injEq] at h
      subst h
      simp only [in_window, column_in_window, hb, hrx]
      refine ⟨?_, ?_, ?_, ?_⟩ <;> split_ifs <;> omega

/-- C20: `scroll()` changes no field other than `rowoff` and `coloff`; it is
the identity when the cursor is already inside the window; with `rows ≥ 1` and
`cols ≥ 1` its result has the cursor inside the window, so that applying it
twice gives what applying it once gives; and it returns whenever `cx ≤ len + 1`
on the current line (always on the empty document). -/
theorem C20_scroll_idempotent (E : editor) (hr : 1 ≤ E.rows) (hc : 1 ≤ E.cols) :
    (∀ E1, scroll E = some E1 → E1 = { E with rowoff := E1.rowoff, coloff := E1.coloff }) ∧
    (in_window E → scroll E = some E) ∧
    (∀ E1, scroll E = some E1 → in_window E1) ∧
    (scroll E).bind scroll = scroll E ∧
    ((∀ b, E.buf = some b → E.cx ≤ b.cur.len + 1) → (scroll E).isSome) := by
  refine ⟨fun E1 h => scroll_frame E E1 h, scroll_in_window E,
    fun E1 h => scroll_result_in_window E E1 hr hc h, ?_, ?_⟩
  · cases h : scroll E with
    | none => rfl
    | some E1 =>
      rw [Option.some_bind]
      exact scroll_in_window E1 (scroll_result_in_window E E1 hr hc h)
  · intro hv
    cases hb : E.buf with
    | none => simp [scroll_empty E hb]
    | some b =>
      have hx := hv b hb
      simp only [line.len] at hx
      rw [scroll_eq E b _ hb (row_cx_to_rx_some b.cur.chars E.cx hx)]
      rfl

/-- Witness for C20: a window scrolled past the cursor is brought back to
`rowoff = 1`, `coloff = 1`, and a second call changes nothing. -/
theorem C20_scroll_idempotent_witness :
    (1 ≤ sample_off_window.rows ∧ 1 ≤ sample_off_window.cols) ∧
    scroll sample_off_window = some { sample_off_window with rowoff := 1, coloff := 1 } ∧
    (scroll sample_off_window).bind scroll = scroll sample_off_window :=
  ⟨⟨by decide, by decide⟩, by decide,
    (C20_scroll_idempotent sample_off_window (by decide) (by decide)).2.2.2.1⟩

/-! ## States of `main` -/

theorem state_ok_of_eq (E E1 : editor) (hx : E1.cx = E.cx) (hb : E1.buf = E.buf)
    (h : state_ok E) : state_ok E1 := by
  unfold state_ok cursor_ok at *
  rw [hx, hb]
  exact h

theorem iterate_step_empty (f : editor → editor) (E : editor) (hf : f E = E) (n : Nat) :
    Nat.iterate f n E = E := by
  induction n with
  | zero => rfl
  | succ k ih =>
    simp only [Nat.iterate, hf]
    exact ih

theorem move_cursor_empty (key : Nat) (E E1 : editor) (hb : E.buf = none) (hx : E.cx = 0)
    (h : move_cursor key E = some E1) : E1 = E := by
  by_cases k1 : key = 104
  · subst k1
    rw [move_cursor_left, if_neg (by omega), Option.some.injEq] at h
    exact h.symm
  by_cases k2 : key = 108
  · subst k2
    simp [move_cursor, hb] at h
    exact h.symm
  by_cases k3 : key = 107
  · subst k3
    simp [move_cursor, hb] at h
    exact h.symm
  by_cases k4 : key = 106
  · subst k4
    simp [move_cursor, hb] at h
    exact h.symm
  by_cases k5 : key = 48
  · subst k5
    rw [move_cursor_home, Option.some.injEq] at h
    rw [← h, ← hx]
  by_cases k6 : key = 36
  · subst k6
    simp [move_cursor, hb] at h
    exact h.symm
  by_cases k7 : key = 74
  · subst k7
    have hi : (Nat.iterate step_down (half_page E) E).buf = none := by
      rw [iterate_step_empty step_down E (by simp [step_down, hb]), hb]
    simp [move_cursor, hi] at h
  by_cases k8 : key = 75
  · subst k8
    have hi : (Nat.iterate step_up (half_page E) E).buf = none := by
      rw [iterate_step_empty step_up E (by simp [step_up, hb]), hb]
    simp [move_cursor, hi] at h
  rw [move_cursor_other key E ⟨k1, k2, k3, k4, k5, k6, k7, k8⟩, Option.some.injEq] at h
  exact h.symm

theorem process_keypress_state_ok (E E1 : editor) (inp inp1 : List (Option Nat))
    (w : Option (List Nat × List Nat)) (hs : state_ok E)
    (h : process_keypress E inp = outcome.running E1 inp1 w) : state_ok E1 := by
  rcases process_keypress_cases E E1 inp inp1 w h with
    h1 | ⟨i, h1⟩ | h1 | h1 | ⟨k, h1⟩ | ⟨c, h1⟩
  · rw [h1]
    exact hs
  · rw [h1]
    exact state_ok_of_eq E _ (save_file_frame E i).2.2 (save_file_frame E i).2.1 hs
  · rcases hs with ⟨hb, _⟩ | hok
    · simp [split_line, hb] at h1
    · obtain ⟨E2, h2, hok2⟩ := split_line_ok E hok
      rw [h1, Option.some.injEq] at h2
      rw [h2]
      exact Or.inr hok2
  · rcases hs with ⟨hb, hx⟩ | hok
    · simp only [delete_char, hb, Option.some.injEq] at h1
      rw [← h1]
      exact Or.inl ⟨hb, hx⟩
    · obtain ⟨E2, h2, hok2⟩ := delete_char_ok E hok
      rw [h1, Option.some.injEq] at h2
      rw [h2]
      exact Or.inr hok2
  · rcases hs with ⟨hb, hx⟩ | hok
    · rw [move_cursor_empty k E E1 hb hx h1]
      exact Or.inl ⟨hb, hx⟩
    · obtain ⟨E2, h2, hok2⟩ := move_cursor_ok k E hok
      rw [h1, Option.some.injEq] at h2
      rw [h2]
      exact Or.inr hok2
  · rcases hs with ⟨hb, hx⟩ | hok
    · simp only [insert_char, hb, Option.some.injEq] at h1
      rw [← h1]
      refine Or.inr ?_
      rw [cursor_ok_iff]
      refine ⟨_, rfl, ?_, ?_⟩
      · simp only
        omega
      · simp only [line.len, List.length_singleton, Nat.cast_one]
        omega
    · obtain ⟨E2, h2, hok2⟩ := insert_char_ok c E hok
      rw [h1, Option.some.injEq] at h2
      rw [h2]
      exact Or.inr hok2

theorem open_file_state_ok (file : Option (List Nat)) (name : List Nat) (E : editor)
    (hx : E.cx = 0) (hs : state_ok E) : state_ok (open_file file name E) := by
  cases file with
  | none => exact hs
  | some content =>
    simp only [open_file, state_ok]
    generalize hg : (getlines content).foldl (fun E0 l => insert_line (strip_eol l) E0)
      { E with buf := none, cy := 0 } = E2
    have hcx : E2.cx = 0 := by
      have hgen : ∀ (ls : List (List Nat)) (E0 : editor),
          (ls.foldl (fun E0 l => insert_line (strip_eol l) E0) E0).cx = E0.cx := by
        intro ls
        induction ls with
        | nil => intro E0; rfl
        | cons l ls ih =>
          intro E0
          simp only [List.foldl_cons]
          rw [ih]
          rfl
      rw [← hg, hgen]
      exact hx
    cases hb : E2.buf with
    | none => exact Or.inl ⟨by simp, hcx⟩
    | some b =>
      refine Or.inr ?_
      rw [cursor_ok_iff]
      refine ⟨b.rewind, by simp, ?_, ?_⟩
      · simp only [hcx]
        omega
      · simp only [hcx, line.len]
        omega

/-- In every state of `main` the cursor is valid or the document is empty with
`cx = 0`. -/
theorem reachable_state_ok (E : editor) (h : reachable E) : state_ok E := by
  induction h with
  | init rows cols => exact Or.inl ⟨rfl, rfl⟩
  | opened rows cols file name =>
    exact open_file_state_ok file name _ rfl (Or.inl ⟨rfl, rfl⟩)
  | scrolled E E1 _ hs ih =>
    have hf := scroll_frame E E1 hs
    exact state_ok_of_eq E E1 (by rw [hf]) (by rw [hf]) ih
  | key E E1 inp inp1 w _ hk ih => exact process_keypress_state_ok E E1 inp inp1 w ih hk

/-- In a state of `main`, `split_line()` is defined exactly when the document
has a current line. -/
theorem split_line_defined_iff (E : editor) (h : reachable E) :
    (split_line E).isSome ↔ E.buf ≠ none := by
  rcases reachable_state_ok E h with ⟨hb, _⟩ | hok
  · simp [split_line, hb]
  · obtain ⟨E1, h1, _⟩ := split_line_ok E hok
    obtain ⟨b, hb, _⟩ := (cursor_ok_iff E).1 hok
    simp [h1, hb]

end Micro
